import Mathlib

/-!
Verification development for the `@uikit/rollup-config` package: a shallow
embedding of `src/tools/rollup/create-config.js` (the configuration assembler)
and of the README badge-updater plugin (`writeBundle`), together with theorems
checking the natural-language specification against this embedding.

Strings are modelled as lists of characters (`Str`); JavaScript string
operations (`startsWith`, `indexOf`, `split(/\r?\n/)`, the two concrete badge
regexes) are embedded as executable Lean functions on `Str`.
-/

namespace Spec2Proof

/-- Strings are modelled as lists of characters. -/
abbrev Str := List Char

/-- Shorthand turning a Lean string literal into its character list. -/
def str (s : String) : Str := s.data

/-- JavaScript `s.startsWith(p)`: `startsWithL p s` is true when the pattern `p`
is an initial run of `s`. -/
def startsWithL : Str → Str → Bool
  | [], _ => true
  | _ :: _, [] => false
  | a :: as, b :: bs => a == b && startsWithL as bs

/-- JavaScript `s.indexOf(p)`: index of the first occurrence of `p` in `s`, if any. -/
def jsIndexOf (pat : Str) : Str → Option Nat
  | [] => if pat.isEmpty then some 0 else none
  | s@(_ :: rest) => if startsWithL pat s then some 0 else (jsIndexOf pat rest).map (· + 1)

/-- Whether `pat` occurs as a contiguous substring of `s` (computable form). -/
def occursB (pat s : Str) : Bool := (jsIndexOf pat s).isSome

/-- `/^[a-zA-Z]:/.test id` from create-config.js line 106. -/
def driveRooted : Str → Bool
  | a :: b :: _ =>
    (decide ('a' ≤ a) && decide (a ≤ 'z') || decide ('A' ≤ a) && decide (a ≤ 'Z')) && b == ':'
  | _ => false

/-- The external-dependency predicate `isExternal` from create-config.js lines 105-110:
relative, absolute and drive-letter-rooted specifiers are never external; otherwise a
specifier is external when it equals a dependency entry or extends one with `/`. -/
def isExternal (externalDeps : List Str) (id : Str) : Bool :=
  if startsWithL (str ".") id || startsWithL (str "/") id || driveRooted id then
    false
  else
    externalDeps.any fun dep => id == dep || startsWithL (dep ++ str "/") id

/-- JS regex `.`: matches any character except a line terminator. -/
def regexDot (c : Char) : Bool :=
  !(c == '\n' || c == '\r' || c == '\u2028' || c == '\u2029')

/-- `str.replace(/[-_](.)/g, (_, c) => c.toUpperCase())` from create-config.js line 243:
left-to-right global scan; a separator followed by a regular character is dropped and
that character uppercased. -/
def replaceSeps : Str → Str
  | [] => []
  | [c] => [c]
  | c :: d :: rest2 =>
    if c == '-' || c == '_' then
      if regexDot d then d.toUpper :: replaceSeps rest2
      else c :: replaceSeps (d :: rest2)
    else c :: replaceSeps (d :: rest2)

/-- `str.replace(/^(.)/, (_, c) => c.toUpperCase())` from create-config.js line 244. -/
def upperFirst : Str → Str
  | [] => []
  | c :: rest => if regexDot c then c.toUpper :: rest else c :: rest

/-- `toPascalCase` from create-config.js lines 241-245. -/
def toPascalCase (s : Str) : Str := upperFirst (replaceSeps s)

/-- Splits `l` after its last `'/'`: returns `(a, b)` with `l = a ++ '/' :: b`
and no `'/'` in `b`. -/
def splitAtLastSlash : Str → Option (Str × Str)
  | [] => none
  | c :: rest =>
    match splitAtLastSlash rest with
    | some (a, b) => some (c :: a, b)
    | none => if c == '/' then some ([], rest) else none

/-- `pkg.name.replace(/^@.*\//, '')` from create-config.js line 188: when the name
starts with `@`, the greedy `.*` makes the match extend to the last `/` reachable
without crossing a line terminator; the match is removed. -/
def stripScope (s : Str) : Str :=
  match s with
  | '@' :: rest =>
    match splitAtLastSlash (rest.takeWhile regexDot) with
    | some (_, b) => b ++ rest.dropWhile regexDot
    | none => s
  | _ => s

/-- Dependency/name/version data read from a `package.json` manifest; for the two
dependency objects only the keys matter (`Object.keys`), absence of a field is `none`. -/
structure PackageJson where
  name : Option Str
  version : Option Str
  dependencies : Option (List Str)
  peerDependencies : Option (List Str)

/-- The package-level filesystem state `createConfig` reads: the manifest file
(absent / malformed / parsed) and the two tsconfig existence probes. -/
structure ConfigFs where
  pkgJson : Option (Except Unit PackageJson)
  tsconfigBuildExists : Bool
  tsconfigExists : Bool

/-- The caller-supplied options object of `createConfig`; `none` is an absent key. -/
structure BuildOptions where
  packageDir : Option Str
  input : Option Str
  outputDir : Option Str
  formats : Option (List Str)
  sourcemap : Option Bool
  minify : Option Bool
  dts : Option Bool
  babel : Option Bool
  browserslist : Option (List Str)
  external : Option (List Str)
  globals : Option (List (Str × Str))
  name : Option Str
  tsconfig : Option (List (Str × Str))

/-- Ambient environment: truthiness of `process.env.ROLLUP_WATCH`. -/
structure Env where
  rollupWatch : Bool

/-- Exceptions the embedded code can raise. -/
inductive JsError where
  | packageDirRequired
  | packageJsonNotFound
  | jsonParse
  | typeErrorUndefined
  | ioError
deriving Repr, DecidableEq

/-- JS truthiness of an optional string (`undefined` and `""` are falsy). -/
def strTruthy : Option Str → Bool
  | none => false
  | some s => !s.isEmpty

/-- `getPackageJson` from create-config.js lines 19-25; `JSON.parse` may also throw. -/
def getPackageJson (fs : ConfigFs) : Except JsError PackageJson :=
  match fs.pkgJson with
  | none => .error .packageJsonNotFound
  | some (.error _) => .error .jsonParse
  | some (.ok pkg) => .ok pkg

/-- Node's `path.resolve`, modelled as segment concatenation; no claim depends on
path normalisation semantics. -/
def pathResolve (base p : Str) : Str := base ++ '/' :: p

/-- `getTsConfigPath` from create-config.js lines 32-47. -/
def getTsConfigPath (fs : ConfigFs) (packageDir : Str) : Str :=
  if fs.tsconfigBuildExists then pathResolve packageDir (str "tsconfig.build.json")
  else if fs.tsconfigExists then pathResolve packageDir (str "tsconfig.json")
  else pathResolve packageDir (str "../../tsconfig.json")

/-- The build-step plugins referenced by create-config.js, with the configuration
fields the source sets on each. -/
inductive Plugin where
  | nodeResolve (extensions : List Str)
  | commonjs
  | jsonPlugin
  | typescript (tsconfig : Str) (declaration declarationMap sourceMap : Bool)
      (compilerOptions : List (Str × Str))
  | babelPlugin (babelHelpers : Str) (extensions : List Str) (exclude : Str)
      (targets : Option (List Str))
  | terser (compressEcma : Nat) (pureGetters : Bool) (formatEcma : Nat)
  | filesize (showMinifiedSize showGzippedSize : Bool)
  | updateReadme (packageDir : Str)
  | dtsPlugin (tsconfig : Str) (preserveSymlinks : Bool)

/-- A Rollup `output` object; fields the source may leave unset are `Option`s. -/
structure OutputConfig where
  dir : Option Str
  file : Option Str
  format : Str
  sourcemap : Option Bool
  preserveModules : Option Bool
  preserveModulesRoot : Option Str
  exports : Option Str
  entryFileNames : Option Str
  chunkFileNames : Option Str
  name : Option Str
  globals : Option (List (Str × Str))

/-- One Rollup configuration object (a build-target descriptor). -/
structure RollupConfig where
  input : Str
  output : OutputConfig
  external : Str → Bool
  plugins : List Plugin

/-- `name || toPascalCase(pkg.name.replace(/^@.*\//, ''))`: evaluating the fallback
reads `.replace` of `pkg.name`, which throws when the manifest has no name. -/
def umdFallbackName (pkg : PackageJson) : Except JsError Str :=
  match pkg.name with
  | none => .error .typeErrorUndefined
  | some nm => .ok (toPascalCase (stripScope nm))

/-- The values captured by the per-format closure inside `createConfig`
(create-config.js lines 165-211), lifted to an explicit context. -/
structure FormatCtx where
  inputPath : Str
  outputPath : Str
  dir : Str
  sourcemap : Bool
  globals : List (Str × Str)
  nameOpt : Option Str
  pkg : PackageJson
  externalDeps : List Str
  basePlugins : List Plugin
  minifyPlugin : Option Plugin
  watch : Bool

/-- `name || toPascalCase(pkg.name.replace(...))` from create-config.js line 188, with
JS string falsiness on the caller-supplied name. -/
def umdName (nameOpt : Option Str) (pkg : PackageJson) : Except JsError Str :=
  match nameOpt with
  | some n => if n.isEmpty then umdFallbackName pkg else .ok n
  | none => umdFallbackName pkg

/-- The `output` object built for one format, create-config.js lines 166-190. -/
def mkOutputConfig (ctx : FormatCtx) (format : Str) : Except JsError OutputConfig :=
  let base : OutputConfig :=
    { dir := some ctx.outputPath, file := none, format := format,
      sourcemap := some ctx.sourcemap,
      preserveModules := some (!(format == str "umd") && !(format == str "iife")),
      preserveModulesRoot := some (pathResolve ctx.dir (str "src")),
      exports := some (str "named"),
      entryFileNames := none, chunkFileNames := none, name := none, globals := none }
  if format == str "esm" || format == str "es" then
    .ok { base with entryFileNames := some (str "[name].mjs"),
                    chunkFileNames := some (str "[name]-[hash].mjs") }
  else if format == str "cjs" then
    .ok { base with entryFileNames := some (str "[name].cjs"),
                    chunkFileNames := some (str "[name]-[hash].cjs") }
  else if format == str "umd" || format == str "iife" then
    match umdName ctx.nameOpt ctx.pkg with
    | .error e => .error e
    | .ok exposed =>
      .ok { base with
        preserveModules := some false,
        entryFileNames := none,
        chunkFileNames := none,
        file := some (pathResolve ctx.outputPath
          (if format == str "umd" then str "index.umd.js" else str "index.iife.js")),
        dir := none,
        name := some exposed,
        globals := some ctx.globals }
  else .ok base

/-- One iteration of `formats.forEach` in create-config.js lines 165-211: builds the
output object for `format` and pushes the per-format configuration. -/
def mkFormatConfig (ctx : FormatCtx) (format : Str) : Except JsError RollupConfig :=
  match mkOutputConfig ctx format with
  | .error e => .error e
  | .ok outputConfig =>
    .ok { input := ctx.inputPath, output := outputConfig,
          external := isExternal ctx.externalDeps,
          plugins := (ctx.basePlugins.map some ++
            [ctx.minifyPlugin,
             some (.filesize false false),
             if (format == str "esm" || format == str "es") && !ctx.watch then
               some (.updateReadme ctx.dir) else none]).filterMap id }

/-- Sequential iteration of the `forEach` loop: an exception thrown at any format
aborts the whole call, discarding every configuration pushed so far. -/
def mapFormats (f : Str → Except JsError RollupConfig) : List Str →
    Except JsError (List RollupConfig)
  | [] => .ok []
  | fmt :: rest =>
    match f fmt with
    | .error e => .error e
    | .ok c =>
      match mapFormats f rest with
      | .error e => .error e
      | .ok cs => .ok (c :: cs)

/-- The dependency list `createConfig` derives from the manifest and the caller
options (create-config.js lines 98-102). -/
def externalDepsOf (options : BuildOptions) (pkg : PackageJson) : List Str :=
  (pkg.dependencies.getD []) ++ (pkg.peerDependencies.getD []) ++ options.external.getD []

/-- The `basePlugins` array of create-config.js lines 113-147: always-on steps plus
the Babel entry, with the JS `.filter(Boolean)`. -/
def basePluginsOf (fs : ConfigFs) (options : BuildOptions) : List Plugin :=
  let dir := (options.packageDir).getD []
  let outputPath := pathResolve dir (options.outputDir.getD (str "dist"))
  [some (.nodeResolve [str ".ts", str ".tsx", str ".js", str ".jsx", str ".json"]),
   some .commonjs,
   some .jsonPlugin,
   some (.typescript (getTsConfigPath fs dir) false false (options.sourcemap.getD true)
     ([(str "target", str "ESNext"), (str "outDir", outputPath),
       (str "rootDir", pathResolve dir (str "src"))] ++ options.tsconfig.getD [])),
   if options.babel.getD true then
     some (.babelPlugin (str "bundled") [str ".ts", str ".tsx", str ".js", str ".jsx"]
       (str "node_modules/**") options.browserslist)
   else none].filterMap id

/-- The `FormatCtx` that `createConfig` assembles before its per-format loop;
this names the corresponding let-bound subterms of create-config.js lines 88-160. -/
def ctxOf (env : Env) (fs : ConfigFs) (options : BuildOptions) (pkg : PackageJson) :
    FormatCtx :=
  let dir := (options.packageDir).getD []
  let outputPath := pathResolve dir (options.outputDir.getD (str "dist"))
  { inputPath := pathResolve dir (options.input.getD (str "src/index.ts")),
    outputPath := outputPath,
    dir := dir,
    sourcemap := options.sourcemap.getD true,
    globals := options.globals.getD [],
    nameOpt := options.name,
    pkg := pkg,
    externalDeps := externalDepsOf options pkg,
    basePlugins := basePluginsOf fs options,
    minifyPlugin := if options.minify.getD true then some (.terser 2018 true 2018) else none,
    watch := env.rollupWatch }

/-- The type-declaration descriptor `createConfig` appends when `dts` is requested
(create-config.js lines 214-231). -/
def dtsConfigOf (fs : ConfigFs) (options : BuildOptions) (pkg : PackageJson) : RollupConfig :=
  let dir := (options.packageDir).getD []
  let outputPath := pathResolve dir (options.outputDir.getD (str "dist"))
  { input := pathResolve dir (options.input.getD (str "src/index.ts")),
    output := { dir := none,
                file := some (pathResolve outputPath (str "index.d.ts")),
                format := str "esm", sourcemap := none, preserveModules := none,
                preserveModulesRoot := none, exports := none,
                entryFileNames := none, chunkFileNames := none, name := none,
                globals := none },
    external := isExternal (externalDepsOf options pkg),
    plugins := [.dtsPlugin (getTsConfigPath fs dir) false] }

/-- `createConfig` from create-config.js lines 67-234. -/
def createConfig (env : Env) (fs : ConfigFs) (options : BuildOptions) :
    Except JsError (List RollupConfig) :=
  if !strTruthy options.packageDir then .error .packageDirRequired
  else
    match getPackageJson fs with
    | .error e => .error e
    | .ok pkg =>
      match mapFormats (mkFormatConfig (ctxOf env fs options pkg))
          (options.formats.getD [str "esm", str "cjs"]) with
      | .error e => .error e
      | .ok configs =>
        .ok (configs ++ if options.dts.getD true then [dtsConfigOf fs options pkg] else [])

/-- Decimal digit character for `d ≤ 9` (anything larger is clamped to `9`;
callers only pass reduced digits). -/
def digitChar : Nat → Char
  | 0 => '0'
  | 1 => '1'
  | 2 => '2'
  | 3 => '3'
  | 4 => '4'
  | 5 => '5'
  | 6 => '6'
  | 7 => '7'
  | 8 => '8'
  | _ => '9'

/-- Decimal digits of `n`, most significant first. -/
def natChars (n : Nat) : Str :=
  if _h : n < 10 then [digitChar n]
  else natChars (n / 10) ++ [digitChar (n % 10)]
termination_by n
decreasing_by exact Nat.div_lt_self (by omega) (by omega)

/-- `(size / 1024).toFixed(2)` from update-readme line 24: the quotient is exact in
binary floating point (1024 is a power of two), and `toFixed(2)` rounds to the
closest 2-decimal value, preferring the larger on ties, so the result is the
half-up rounding of `size*100/1024` rendered with two decimals. -/
def sizeFixed2 (size : Nat) : Str :=
  let n := (size * 200 + 1024) / 2048
  natChars (n / 100) ++ '.' ::
    (if n % 100 < 10 then '0' :: [digitChar (n % 100)] else natChars (n % 100))

/-- The fixed text of the version-badge regex before its `[^)]+` part
(update-readme line 32). -/
def vHead : Str := str "![version](https://img.shields.io/badge/Version-"

/-- The fixed text of the size-badge regex before its `[^)]+` part
(update-readme lines 47-48). -/
def sHead : Str := str "![minzipped size](https://img.shields.io/badge/minzipped%20size-"

/-- JS template interpolation of a possibly-absent field: `undefined` renders as
the text `undefined`. -/
def interpStr : Option Str → Str
  | some s => s
  | none => str "undefined"

/-- The version badge text built on update-readme line 26. -/
def versionBadge (version : Option Str) : Str := vHead ++ interpStr version ++ str "-blue)"

/-- The size badge text built on update-readme line 27. -/
def sizeBadge (sizeStr : Str) : Str := sHead ++ sizeStr ++ str "-success)"

/-- Matches the regex `head[^)]+\)` at the start of `s`: the fixed head, a nonempty
run of non-`)` characters, then `)`. Returns the matched text and the remainder. -/
def matchAt (head s : Str) : Option (Str × Str) :=
  if startsWithL head s then
    if ((s.drop head.length).takeWhile (· != ')')).isEmpty then none
    else
      match (s.drop head.length).dropWhile (· != ')') with
      | ')' :: rest3 =>
        some (head ++ (s.drop head.length).takeWhile (· != ')') ++ [')'], rest3)
      | _ => none
  else none

/-- Leftmost match of the regex `head[^)]+\)` in `s`: the text before the match,
the matched text, and the remainder after it. -/
def findMatch (head : Str) : Str → Option (Str × Str × Str)
  | [] =>
    match matchAt head [] with
    | some (m, r) => some ([], m, r)
    | none => none
  | c :: rest =>
    match matchAt head (c :: rest) with
    | some (m, r) => some ([], m, r)
    | none =>
      match findMatch head rest with
      | some (p, m, r) => some (c :: p, m, r)
      | none => none

/-- JS `content.split(/\r?\n/)` (update-readme line 36): a `\r` is swallowed only
when a `\n` follows it. -/
def splitLines : Str → List Str
  | [] => [[]]
  | '\r' :: '\n' :: rest => [] :: splitLines rest
  | '\n' :: rest => [] :: splitLines rest
  | c :: rest =>
    match splitLines rest with
    | [] => [[c]]
    | l :: ls => (c :: l) :: ls

/-- JS `lines.join('\n')`. -/
def joinLines : List Str → Str
  | [] => []
  | [l] => l
  | l :: ls => l ++ '\n' :: joinLines ls

/-- JS `lines.splice(i, 0, x)` restricted to pure insertion; an index beyond the
end appends. -/
def insertAt : Nat → α → List α → List α
  | 0, x, l => x :: l
  | _ + 1, x, [] => [x]
  | n + 1, x, c :: cs => c :: insertAt n x cs

/-- JS GetSubstitution for `String.prototype.replace` with a string replacement
and a capture-free regex (the version regex of update-readme line 32 has no
capture groups): `$$` yields `$`, `$&` the matched text `m`, `$` followed by
`Char.ofNat 96` (backquote) the part `b` of the subject before the match, `$`
followed by `Char.ofNat 39` (apostrophe) the part `a` after it; any other `$`
(including `$n` with no such group, and a trailing `$`) is rendered literally. -/
def jsSubst (m b a : Str) : Str → Str
  | [] => []
  | [c] => [c]
  | c :: d :: rest =>
    if c = '$' then
      if d = '$' then '$' :: jsSubst m b a rest
      else if d = '&' then m ++ jsSubst m b a rest
      else if d = Char.ofNat 96 then b ++ jsSubst m b a rest
      else if d = Char.ofNat 39 then a ++ jsSubst m b a rest
      else '$' :: jsSubst m b a (d :: rest)
    else c :: jsSubst m b a (d :: rest)

/-- The version-badge update step, update-readme lines 31-44: replace the first
regex match in place (with JS `$`-substitution applied to the replacement
string), otherwise insert after the first `# ` title line, otherwise prepend at
the very top. -/
def updateVersion (vBadge content : Str) : Str :=
  match findMatch vHead content with
  | some (p, m, r) => p ++ jsSubst m p r vBadge ++ r
  | none =>
    let lines := splitLines content
    match lines.findIdx? (fun line => startsWithL (str "# ") line) with
    | some t => joinLines (insertAt (t + 1) ('\n' :: vBadge) lines)
    | none => joinLines ((vBadge ++ ['\n']) :: lines)

/-- The size-badge update step, update-readme lines 46-61: replace the first regex
match in place; otherwise insert right after the version badge text when it is
present; otherwise leave the content unchanged. -/
def updateSize (sBadge vBadge content : Str) : Str :=
  match findMatch sHead content with
  | some (p, _, r) => p ++ sBadge ++ r
  | none =>
    match jsIndexOf vBadge content with
    | some v =>
      content.take (v + vBadge.length) ++ ' ' :: sBadge ++ content.drop (v + vBadge.length)
    | none => content

/-- One emitted bundle entry (`type` is `"chunk"` for code chunks). -/
structure Chunk where
  type : Str
  code : Str

/-- Filesystem state the badge updater touches: the README file, the manifest file
(absent / malformed / parsed), and whether the final write succeeds. -/
structure ReadmeFs where
  readme : Option Str
  pkgJson : Option (Except Unit PackageJson)
  writeOk : Bool

/-- The body of the `try` block, update-readme lines 15-63: parse the manifest,
sum gzipped sizes of code chunks, rewrite both badges and write the README back.
May raise on malformed JSON or on the final `writeFileSync`. `gzipLen` models
`gzipSync(...).length`. On success returns the content written. -/
def writeBundleTry (gzipLen : Str → Nat) (fs : ReadmeFs) (bundle : List Chunk) :
    Except JsError Str :=
  match fs.pkgJson with
  | some (.ok pkg) =>
    let size := bundle.foldl
      (fun acc c => if c.type == str "chunk" then acc + gzipLen c.code else acc) 0
    let sizeStr := sizeFixed2 size ++ str "kB"
    let vBadge := versionBadge pkg.version
    let sBadge := sizeBadge sizeStr
    let content := (fs.readme).getD []
    let c2 := updateSize sBadge vBadge (updateVersion vBadge content)
    if fs.writeOk then .ok c2 else .error .ioError
  | some (.error _) => .error .jsonParse
  | none => .error .jsonParse

/-- `writeBundle` from the update-readme plugin, lines 8-67: silently returns when
README or manifest is absent; otherwise runs the try block, catching any exception
and logging it to stderr. Returns the updated filesystem and the stderr lines. -/
def writeBundle (gzipLen : Str → Nat) (fs : ReadmeFs) (bundle : List Chunk) :
    ReadmeFs × List Str :=
  if fs.readme.isNone || fs.pkgJson.isNone then (fs, [])
  else
    match writeBundleTry gzipLen fs bundle with
    | .ok c => ({ fs with readme := some c }, [])
    | .error _ => (fs, [str "Failed to update README badges:"])

/-- `pat` occurs starting at index `i` of `s`. -/
def StartsAt (pat s : Str) (i : Nat) : Prop := startsWithL pat (s.drop i) = true

/-- `pat` occurs somewhere in `s` (propositional form). -/
def OccursIn (pat s : Str) : Prop := ∃ a b, s = a ++ pat ++ b

/-- Number of indices of `s` at which `pat` occurs. -/
def countStarts (pat s : Str) : Nat :=
  ((List.range (s.length + 1)).filter fun i => startsWithL pat (s.drop i)).length

/-- Splits `l` at its first `'/'`: returns `(a, b)` with `l = a ++ '/' :: b`
and no `'/'` in `a`. -/
def splitAtFirstSlash : Str → Option (Str × Str)
  | [] => none
  | c :: rest =>
    if c = '/' then some ([], rest)
    else (splitAtFirstSlash rest).map fun p => (c :: p.1, p.2)

/-- Modelled from the spec's words for the refinement check of the name derivation:
"strip a leading `@scope/` segment", reading the scope as everything up to the
first `/`. -/
def stripScopeSpec (s : Str) : Str :=
  match s with
  | '@' :: rest =>
    match splitAtFirstSlash rest with
    | some (_, r) => r
    | none => '@' :: rest
  | _ => s

/-- Modelled from the spec's words for the refinement check of the name derivation:
"uppercase the letter following each `-`/`_`, removing the separator". -/
def pascalSpecCore : Str → Str
  | [] => []
  | '-' :: d :: rest => d.toUpper :: pascalSpecCore rest
  | '_' :: d :: rest => d.toUpper :: pascalSpecCore rest
  | c :: rest => c :: pascalSpecCore rest

/-- Modelled from the spec's words (section 4.1, PascalCase derivation rule): strip a
leading `@scope/` segment, then uppercase the first letter and each letter following
a `-`/`_`, removing the separator. -/
def pascalSpec (s : Str) : Str :=
  match pascalSpecCore (stripScopeSpec s) with
  | [] => []
  | c :: rest => c.toUpper :: rest

/-- Sample manifest used by the concrete parts of the claims: dependencies `a`,
peer dependencies `b`. -/
def samplePkg : PackageJson :=
  { name := some (str "@scope/my-lib"), version := some (str "1.0.0"),
    dependencies := some [str "a"], peerDependencies := some [str "b"] }

/-- Sample filesystem: the manifest above, both tsconfig probes succeeding. -/
def sampleFs : ConfigFs :=
  { pkgJson := some (.ok samplePkg), tsconfigBuildExists := true, tsconfigExists := true }

/-- Sample options: a package dir, caller externals `c`, everything else defaulted. -/
def sampleOpts : BuildOptions :=
  { packageDir := some (str "/p"), input := none, outputDir := none, formats := none,
    sourcemap := none, minify := none, dts := none, babel := none, browserslist := none,
    external := some [str "c"], globals := none, name := none, tsconfig := none }

/-- Sample README filesystem: a badge-free README plus the sample manifest,
with writing enabled. -/
def rfsSample : ReadmeFs :=
  { readme := some (str "hello"), pkgJson := some (.ok samplePkg), writeOk := true }

/-! ### Toolkit: prefix, occurrence and index lemmas -/

theorem startsWithL_iff (p s : Str) : startsWithL p s = true ↔ ∃ t, s = p ++ t := by
  induction p generalizing s with
  | nil => simp [startsWithL]
  | cons a as ih =>
    cases s with
    | nil => simp [startsWithL]
    | cons b bs =>
      simp only [startsWithL, Bool.and_eq_true, beq_iff_eq, ih, List.cons_append,
        List.cons.injEq]
      constructor
      · rintro ⟨rfl, t, rfl⟩
        exact ⟨t, rfl, rfl⟩
      · rintro ⟨t, rfl, rfl⟩
        exact ⟨rfl, t, rfl⟩

theorem startsWithL_length {p s : Str} (h : startsWithL p s = true) :
    p.length ≤ s.length := by
  obtain ⟨t, rfl⟩ := (startsWithL_iff p s).1 h
  rw [List.length_append]
  omega

theorem startsWithL_same (p t : Str) : startsWithL p (p ++ t) = true :=
  (startsWithL_iff p (p ++ t)).2 ⟨t, rfl⟩

theorem startsWithL_head {c : Char} {p s : Str} (h : startsWithL (c :: p) s = true) :
    ∃ u, s = c :: u := by
  obtain ⟨t, rfl⟩ := (startsWithL_iff _ _).1 h
  exact ⟨p ++ t, rfl⟩

theorem startsWithL_of_append {a b s : Str} (h : startsWithL (a ++ b) s = true) :
    startsWithL a s = true := by
  obtain ⟨t, rfl⟩ := (startsWithL_iff _ _).1 h
  rw [List.append_assoc]
  exact startsWithL_same a (b ++ t)

theorem startsWithL_append_of_le (p a v : Str) (h : p.length ≤ a.length) :
    startsWithL p (a ++ v) = startsWithL p a := by
  induction p generalizing a with
  | nil => simp [startsWithL]
  | cons c cs ih =>
    cases a with
    | nil => simp at h
    | cons b bs =>
      simp only [List.length_cons] at h
      simp only [List.cons_append, startsWithL, List.append_eq, ih bs (by omega)]

theorem startsWithL_take {p s : Str} (h : startsWithL p s = true) :
    s.take p.length = p := by
  obtain ⟨t, rfl⟩ := (startsWithL_iff p s).1 h
  exact List.take_left p t

theorem startsAt_iff (pat s : Str) (i : Nat) :
    StartsAt pat s i ↔ ∃ t, s.drop i = pat ++ t := startsWithL_iff pat (s.drop i)

theorem startsAt_le {pat s : Str} {i : Nat} (hp : pat ≠ []) (h : StartsAt pat s i) :
    i ≤ s.length := by
  have h1 := startsWithL_length h
  have h2 : (s.drop i).length = s.length - i := List.length_drop i s
  have h3 : 0 < pat.length := List.length_pos.2 hp
  omega

theorem occursIn_iff (pat s : Str) : OccursIn pat s ↔ ∃ i, StartsAt pat s i := by
  constructor
  · rintro ⟨a, b, rfl⟩
    refine ⟨a.length, ?_⟩
    unfold StartsAt
    rw [List.append_assoc, List.drop_left]
    exact startsWithL_same pat b
  · rintro ⟨i, h⟩
    obtain ⟨t, ht⟩ := (startsAt_iff pat s i).1 h
    refine ⟨s.take i, t, ?_⟩
    conv_lhs => rw [← List.take_append_drop i s]
    rw [ht, List.append_assoc]

theorem occursIn_append_left {pat u : Str} (v : Str) (h : OccursIn pat u) :
    OccursIn pat (u ++ v) := by
  obtain ⟨a, b, rfl⟩ := h
  exact ⟨a, b ++ v, by simp [List.append_assoc]⟩

theorem occursIn_append_right {pat v : Str} (u : Str) (h : OccursIn pat v) :
    OccursIn pat (u ++ v) := by
  obtain ⟨a, b, rfl⟩ := h
  exact ⟨u ++ a, b, by simp [List.append_assoc]⟩

theorem occursIn_nil {pat : Str} (h : OccursIn pat []) : pat = [] := by
  obtain ⟨a, b, hab⟩ := h
  have := congrArg List.length hab
  simp [List.length_append] at this
  exact List.length_eq_zero.1 (by omega)

theorem startsAt_append_left {pat u : Str} {i : Nat} (v : Str) (h : StartsAt pat u i) :
    StartsAt pat (u ++ v) i := by
  obtain ⟨t, ht⟩ := (startsAt_iff pat u i).1 h
  refine (startsAt_iff pat (u ++ v) i).2 ⟨t ++ v.drop (i - u.length), ?_⟩
  rw [List.drop_append_eq_append_drop, ht, List.append_assoc]

theorem startsAt_append_right {pat v : Str} (u : Str) {i : Nat} (h : StartsAt pat v i) :
    StartsAt pat (u ++ v) (u.length + i) := by
  unfold StartsAt at h ⊢
  rw [List.drop_append_eq_append_drop, List.drop_of_length_le (by omega),
    Nat.add_sub_cancel_left, List.nil_append]
  exact h

theorem drop_append_of_le {u v : Str} {i : Nat} (h : i ≤ u.length) :
    (u ++ v).drop i = u.drop i ++ v := by
  rw [List.drop_append_eq_append_drop, Nat.sub_eq_zero_of_le h, List.drop_zero]

theorem startsAt_append_elim {pat u v : Str} {i : Nat} (h : StartsAt pat (u ++ v) i) :
    (i + pat.length ≤ u.length ∧ StartsAt pat u i) ∨
    (u.length ≤ i ∧ StartsAt pat v (i - u.length)) ∨
    (i < u.length ∧ u.length < i + pat.length ∧
      u.drop i = pat.take (u.length - i) ∧
      startsWithL (pat.drop (u.length - i)) v = true) := by
  obtain ⟨t, ht⟩ := (startsAt_iff pat (u ++ v) i).1 h
  by_cases hu : u.length ≤ i
  · refine Or.inr (Or.inl ⟨hu, ?_⟩)
    unfold StartsAt
    rw [List.drop_append_eq_append_drop, List.drop_of_length_le hu, List.nil_append] at ht
    rw [ht]
    exact startsWithL_same pat t
  · push_neg at hu
    rw [drop_append_of_le (by omega)] at ht
    by_cases hfit : i + pat.length ≤ u.length
    · refine Or.inl ⟨hfit, ?_⟩
      unfold StartsAt
      rw [startsWithL_iff]
      have hlen : pat.length ≤ (u.drop i).length := by
        rw [List.length_drop]; omega
      have htake : (u.drop i).take pat.length = pat := by
        have := congrArg (List.take pat.length) ht
        rw [List.take_append_of_le_length hlen, List.take_left] at this
        exact this
      refine ⟨(u.drop i).drop pat.length, ?_⟩
      conv_lhs => rw [← List.take_append_drop pat.length (u.drop i)]
      rw [htake]
    · push_neg at hfit
      refine Or.inr (Or.inr ⟨hu, hfit, ?_, ?_⟩)
      · have hlen : (u.drop i).length = u.length - i := List.length_drop i u
        have h5 := congrArg (List.take (u.length - i)) ht
        rw [List.take_append_of_le_length (by omega),
          List.take_append_of_le_length (by omega),
          List.take_of_length_le (by omega)] at h5
        exact h5
      · have hlen : (u.drop i).length = u.length - i := List.length_drop i u
        have h5 := congrArg (List.drop (u.length - i)) ht
        rw [List.drop_append_eq_append_drop, List.drop_of_length_le (by omega),
          List.nil_append] at h5
        have hz : u.length - i - (u.drop i).length = 0 := by omega
        rw [hz, List.drop_zero, drop_append_of_le (by omega)] at h5
        rw [h5]
        exact startsWithL_same _ _

theorem occursIn_append_elim {pat u v : Str} (h : OccursIn pat (u ++ v)) :
    OccursIn pat u ∨ OccursIn pat v ∨
      ∃ i k, 0 < k ∧ k < pat.length ∧ u.length = i + k ∧
        u.drop i = pat.take k ∧ startsWithL (pat.drop k) v = true := by
  obtain ⟨i, hi⟩ := (occursIn_iff pat (u ++ v)).1 h
  rcases startsAt_append_elim hi with ⟨_, h1⟩ | ⟨_, h1⟩ | ⟨h1, h2, h3, h4⟩
  · exact Or.inl ((occursIn_iff pat u).2 ⟨i, h1⟩)
  · exact Or.inr (Or.inl ((occursIn_iff pat v).2 ⟨_, h1⟩))
  · exact Or.inr (Or.inr ⟨i, u.length - i, by omega, by omega, by omega, h3, h4⟩)

theorem jsIndexOf_some {pat s : Str} {v : Nat} (h : jsIndexOf pat s = some v) :
    StartsAt pat s v ∧ ∀ i < v, ¬ StartsAt pat s i := by
  induction s generalizing v with
  | nil =>
    unfold jsIndexOf at h
    split at h
    · rename_i hemp
      cases h
      rw [List.isEmpty_iff] at hemp
      subst hemp
      exact ⟨rfl, by omega⟩
    · cases h
  | cons c rest ih =>
    unfold jsIndexOf at h
    split at h
    · rename_i hsw
      cases h
      refine ⟨hsw, by omega⟩
    · rename_i hsw
      rw [Option.map_eq_some'] at h
      obtain ⟨w, hw, rfl⟩ := h
      obtain ⟨h1, h2⟩ := ih hw
      constructor
      · unfold StartsAt
        rw [List.drop_succ_cons]
        exact h1
      · intro i hi
        cases i with
        | zero => simpa [StartsAt] using hsw
        | succ j =>
          unfold StartsAt
          rw [List.drop_succ_cons]
          exact h2 j (by omega)

theorem jsIndexOf_none {pat s : Str} (h : jsIndexOf pat s = none) :
    ∀ i, ¬ StartsAt pat s i := by
  induction s with
  | nil =>
    unfold jsIndexOf at h
    split at h
    · cases h
    · rename_i hemp
      intro i hi
      unfold StartsAt at hi
      rw [List.drop_nil] at hi
      obtain ⟨t, ht⟩ := (startsWithL_iff _ _).1 hi
      have hp : pat = [] := by
        cases pat with
        | nil => rfl
        | cons a as => simp at ht
      rw [hp] at hemp
      simp at hemp
  | cons c rest ih =>
    unfold jsIndexOf at h
    split at h
    · cases h
    · rename_i hsw
      rw [Option.map_eq_none'] at h
      intro i
      cases i with
      | zero => simpa [StartsAt] using hsw
      | succ j =>
        unfold StartsAt
        rw [List.drop_succ_cons]
        exact ih h j

theorem occursB_iff (pat s : Str) : occursB pat s = true ↔ OccursIn pat s := by
  unfold occursB
  cases h : jsIndexOf pat s with
  | none =>
    simp only [Option.isSome_none]
    constructor
    · intro hx; cases hx
    · intro hx
      obtain ⟨i, hi⟩ := (occursIn_iff pat s).1 hx
      exact absurd hi (jsIndexOf_none h i)
  | some v =>
    simp only [Option.isSome_some]
    exact ⟨fun _ => (occursIn_iff pat s).2 ⟨v, (jsIndexOf_some h).1⟩, fun _ => trivial⟩

/-! ### Structural lemmas about the assembler -/

theorem getPackageJson_ok {fs : ConfigFs} {pkg : PackageJson}
    (h : getPackageJson fs = .ok pkg) : fs.pkgJson = some (.ok pkg) := by
  unfold getPackageJson at h
  split at h <;> simp_all

theorem createConfig_ok_elim {env : Env} {fs : ConfigFs} {options : BuildOptions}
    {cfgs : List RollupConfig} (h : createConfig env fs options = .ok cfgs) :
    ∃ pkg fcfgs,
      fs.pkgJson = some (.ok pkg) ∧
      strTruthy options.packageDir = true ∧
      mapFormats (mkFormatConfig (ctxOf env fs options pkg))
        (options.formats.getD [str "esm", str "cjs"]) = .ok fcfgs ∧
      cfgs = fcfgs ++ (if options.dts.getD true then [dtsConfigOf fs options pkg] else []) := by
  unfold createConfig at h
  split at h
  · cases h
  · rename_i hguard
    split at h
    · cases h
    · rename_i pkg hpkg
      split at h
      · cases h
      · rename_i fcfgs hmap
        cases h
        exact ⟨pkg, fcfgs, getPackageJson_ok hpkg, by simpa using hguard, hmap, rfl⟩

theorem mapFormats_ok_length {f : Str → Except JsError RollupConfig} :
    ∀ {l : List Str} {cfgs : List RollupConfig}, mapFormats f l = .ok cfgs →
      cfgs.length = l.length := by
  intro l
  induction l with
  | nil => intro cfgs h; cases h; rfl
  | cons a rest ih =>
    intro cfgs h
    unfold mapFormats at h
    split at h
    · cases h
    · split at h
      · cases h
      · rename_i cs hcs
        cases h
        simp [ih hcs]

theorem mapFormats_ok_get {f : Str → Except JsError RollupConfig} :
    ∀ {l : List Str} {cfgs : List RollupConfig}, mapFormats f l = .ok cfgs →
      ∀ i (hi : i < l.length) (hc : i < cfgs.length),
        f (l.get ⟨i, hi⟩) = .ok (cfgs.get ⟨i, hc⟩) := by
  intro l
  induction l with
  | nil => intro cfgs h i hi; exact absurd hi (by simp)
  | cons a rest ih =>
    intro cfgs h i hi hc
    unfold mapFormats at h
    split at h
    · cases h
    · rename_i c hcEq
      split at h
      · cases h
      · rename_i cs hcs
        cases h
        cases i with
        | zero => exact hcEq
        | succ j => exact ih hcs j (by simpa using hi) (by simpa using hc)

theorem mapFormats_ok_mem {f : Str → Except JsError RollupConfig} :
    ∀ {l : List Str} {cfgs : List RollupConfig}, mapFormats f l = .ok cfgs →
      ∀ c ∈ cfgs, ∃ fmt, fmt ∈ l ∧ f fmt = .ok c := by
  intro l
  induction l with
  | nil => intro cfgs h c hc; cases h; cases hc
  | cons a rest ih =>
    intro cfgs h c hc
    unfold mapFormats at h
    split at h
    · cases h
    · rename_i c0 hc0
      split at h
      · cases h
      · rename_i cs hcs
        cases h
        rcases List.mem_cons.1 hc with rfl | hmem
        · exact ⟨a, List.mem_cons_self a rest, hc0⟩
        · obtain ⟨fmt, hf1, hf2⟩ := ih hcs c hmem
          exact ⟨fmt, List.mem_cons_of_mem a hf1, hf2⟩

theorem umdName_none_err {pkg : PackageJson} (hpkg : pkg.name = none) :
    umdName none pkg = .error .typeErrorUndefined := by
  unfold umdName umdFallbackName
  rw [hpkg]

theorem umdName_none_ok {pkg : PackageJson} {nm : Str} (hpkg : pkg.name = some nm) :
    umdName none pkg = .ok (toPascalCase (stripScope nm)) := by
  unfold umdName umdFallbackName
  rw [hpkg]

theorem mkFormatConfig_ok_elim {ctx : FormatCtx} {format : Str} {cfg : RollupConfig}
    (h : mkFormatConfig ctx format = .ok cfg) :
    cfg.input = ctx.inputPath ∧
    cfg.external = isExternal ctx.externalDeps ∧
    mkOutputConfig ctx format = .ok cfg.output ∧
    cfg.plugins = (ctx.basePlugins.map some ++
      [ctx.minifyPlugin, some (.filesize false false),
       if (format == str "esm" || format == str "es") && !ctx.watch then
         some (.updateReadme ctx.dir) else none]).filterMap id := by
  unfold mkFormatConfig at h
  split at h
  · cases h
  · rename_i oc hoc
    cases h
    exact ⟨rfl, rfl, hoc, rfl⟩

theorem mkOutputConfig_format {ctx : FormatCtx} {format : Str} {oc : OutputConfig}
    (h : mkOutputConfig ctx format = .ok oc) : oc.format = format := by
  unfold mkOutputConfig at h
  split at h
  · cases h; rfl
  · split at h
    · cases h; rfl
    · split at h
      · split at h
        · cases h
        · cases h; rfl
      · cases h; rfl

theorem mkFormatConfig_format {ctx : FormatCtx} {format : Str} {cfg : RollupConfig}
    (h : mkFormatConfig ctx format = .ok cfg) : cfg.output.format = format :=
  mkOutputConfig_format (mkFormatConfig_ok_elim h).2.2.1

theorem mkFormatConfig_ok_of_ne {ctx : FormatCtx} {format : Str}
    (h1 : format ≠ str "umd") (h2 : format ≠ str "iife") :
    ∃ cfg, mkFormatConfig ctx format = .ok cfg := by
  have hoc : ∃ oc, mkOutputConfig ctx format = .ok oc := by
    unfold mkOutputConfig
    have hc1 : (format == str "umd") = false := beq_eq_false_iff_ne.2 h1
    have hc2 : (format == str "iife") = false := beq_eq_false_iff_ne.2 h2
    simp only [hc1, hc2, Bool.or_self, Bool.false_or, Bool.false_eq_true, if_false]
    by_cases he : (format == str "esm" || format == str "es") = true
    · simp only [he, if_true]
      exact ⟨_, rfl⟩
    · simp only [Bool.not_eq_true] at he
      simp only [he, Bool.false_eq_true, if_false]
      by_cases hcjs : (format == str "cjs") = true
      · simp only [hcjs, if_true]
        exact ⟨_, rfl⟩
      · simp only [Bool.not_eq_true] at hcjs
        simp only [hcjs, Bool.false_eq_true, if_false]
        exact ⟨_, rfl⟩
  obtain ⟨oc, hoc⟩ := hoc
  unfold mkFormatConfig
  rw [hoc]
  exact ⟨_, rfl⟩

theorem mkOutputConfig_umd_branch {ctx : FormatCtx} {format : Str}
    (hfmt : format = str "umd" ∨ format = str "iife") :
    mkOutputConfig ctx format =
      match umdName ctx.nameOpt ctx.pkg with
      | .error e => .error e
      | .ok exposed =>
        .ok { dir := none,
              file := some (pathResolve ctx.outputPath
                (if format == str "umd" then str "index.umd.js" else str "index.iife.js")),
              format := format,
              sourcemap := some ctx.sourcemap,
              preserveModules := some false,
              preserveModulesRoot := some (pathResolve ctx.dir (str "src")),
              exports := some (str "named"),
              entryFileNames := none, chunkFileNames := none,
              name := some exposed, globals := some ctx.globals } := by
  have h1 : (format == str "esm" || format == str "es") = false := by
    rcases hfmt with rfl | rfl <;> decide
  have h2 : (format == str "cjs") = false := by
    rcases hfmt with rfl | rfl <;> decide
  have h3 : (format == str "umd" || format == str "iife") = true := by
    rcases hfmt with rfl | rfl <;> decide
  unfold mkOutputConfig
  simp only [h1, h2, h3, Bool.false_eq_true, if_false, if_true]

theorem mkFormatConfig_umd_noName {ctx : FormatCtx} {format : Str}
    (hfmt : format = str "umd" ∨ format = str "iife")
    (hname : ctx.nameOpt = none) (hpkg : ctx.pkg.name = none) :
    mkFormatConfig ctx format = .error .typeErrorUndefined := by
  have hoc : mkOutputConfig ctx format = .error .typeErrorUndefined := by
    rw [mkOutputConfig_umd_branch hfmt, hname, umdName_none_err hpkg]
  unfold mkFormatConfig
  rw [hoc]

theorem mkFormatConfig_umd_name {ctx : FormatCtx} {format : Str} {cfg : RollupConfig}
    (hfmt : format = str "umd" ∨ format = str "iife")
    (hname : ctx.nameOpt = none)
    (h : mkFormatConfig ctx format = .ok cfg) :
    ∃ nm, ctx.pkg.name = some nm ∧
      cfg.output.name = some (toPascalCase (stripScope nm)) := by
  cases hp : ctx.pkg.name with
  | none => rw [mkFormatConfig_umd_noName hfmt hname hp] at h; cases h
  | some nm =>
    refine ⟨nm, rfl, ?_⟩
    have hoc := (mkFormatConfig_ok_elim h).2.2.1
    rw [mkOutputConfig_umd_branch hfmt, hname, umdName_none_ok hp] at hoc
    injection hoc with hoc
    rw [← hoc]

/-! ### C1: externality classification -/

theorem driveRooted_iff (id : Str) :
    driveRooted id = true ↔
      ∃ a t, id = a :: ':' :: t ∧ (('a' ≤ a ∧ a ≤ 'z') ∨ ('A' ≤ a ∧ a ≤ 'Z')) := by
  cases id with
  | nil => simp [driveRooted]
  | cons a rest =>
    cases rest with
    | nil => simp [driveRooted]
    | cons b t =>
      simp only [driveRooted, Bool.and_eq_true, Bool.or_eq_true, decide_eq_true_eq,
        beq_iff_eq]
      constructor
      · rintro ⟨hl, rfl⟩
        exact ⟨a, t, rfl, by tauto⟩
      · rintro ⟨a2, t2, heq, hl⟩
        obtain ⟨rfl, rfl, rfl⟩ : a = a2 ∧ b = ':' ∧ t = t2 := by
          injection heq with h1 h2
          injection h2 with h2 h3
          exact ⟨h1, h2, h3⟩
        exact ⟨by tauto, rfl⟩

/-- C1: the externality predicate classifies a specifier as external iff it does not
start with `.` or `/`, is not drive-letter-rooted, and equals or slash-extends some
entry of dependencies ∪ peerDependencies ∪ caller externals; on the concrete manifest
(dependencies `a`, peer `b`, caller externals `c`) the specifiers `a`, `a/sub`, `b`,
`c` are external and `./a`, `/abs/a`, `d` are bundled; and every descriptor produced
by `createConfig` carries exactly this externality predicate. -/
theorem c1_external_classification :
    (∀ (deps : List Str) (id : Str),
      isExternal deps id = true ↔
        ((¬ ∃ t, id = '.' :: t) ∧ (¬ ∃ t, id = '/' :: t) ∧
         (¬ ∃ a t, id = a :: ':' :: t ∧ (('a' ≤ a ∧ a ≤ 'z') ∨ ('A' ≤ a ∧ a ≤ 'Z'))) ∧
         ∃ dep ∈ deps, id = dep ∨ ∃ rest, id = dep ++ '/' :: rest)) ∧
    (isExternal (externalDepsOf sampleOpts samplePkg) (str "a") = true ∧
     isExternal (externalDepsOf sampleOpts samplePkg) (str "a/sub") = true ∧
     isExternal (externalDepsOf sampleOpts samplePkg) (str "b") = true ∧
     isExternal (externalDepsOf sampleOpts samplePkg) (str "c") = true ∧
     isExternal (externalDepsOf sampleOpts samplePkg) (str "./a") = false ∧
     isExternal (externalDepsOf sampleOpts samplePkg) (str "/abs/a") = false ∧
     isExternal (externalDepsOf sampleOpts samplePkg) (str "d") = false) ∧
    (∀ env fs options pkg cfgs, fs.pkgJson = some (.ok pkg) →
      createConfig env fs options = .ok cfgs →
      ∀ cfg ∈ cfgs, cfg.external = isExternal (externalDepsOf options pkg)) := by
  refine ⟨?_, ?_, ?_⟩
  · intro deps id
    unfold isExternal
    split
    · rename_i hguard
      rw [Bool.or_eq_true, Bool.or_eq_true] at hguard
      constructor
      · intro hfalse; cases hfalse
      · rintro ⟨h1, h2, h3, _⟩
        rcases hguard with (hg | hg) | hg
        · obtain ⟨t, ht⟩ := (startsWithL_iff _ _).1 hg
          exact absurd ⟨t, ht⟩ h1
        · obtain ⟨t, ht⟩ := (startsWithL_iff _ _).1 hg
          exact absurd ⟨t, ht⟩ h2
        · exact absurd ((driveRooted_iff id).1 hg) h3
    · rename_i hguard
      simp only [Bool.or_eq_true, not_or, Bool.not_eq_true] at hguard
      obtain ⟨⟨hng1, hng2⟩, hng3⟩ := hguard
      rw [List.any_eq_true]
      constructor
      · rintro ⟨dep, hdep, hcase⟩
        rw [Bool.or_eq_true, beq_iff_eq] at hcase
        refine ⟨?_, ?_, ?_, dep, hdep, ?_⟩
        · rintro ⟨t, rfl⟩
          rw [show ('.' :: t : Str) = str "." ++ t from rfl, startsWithL_same] at hng1
          cases hng1
        · rintro ⟨t, rfl⟩
          rw [show ('/' :: t : Str) = str "/" ++ t from rfl, startsWithL_same] at hng2
          cases hng2
        · intro hdr
          rw [(driveRooted_iff id).2 hdr] at hng3
          cases hng3
        · rcases hcase with h | h
          · exact Or.inl h
          · obtain ⟨rest, hr⟩ := (startsWithL_iff _ _).1 h
            exact Or.inr ⟨rest, by simpa [List.append_assoc] using hr⟩
      · rintro ⟨_, _, _, dep, hdep, hcase⟩
        refine ⟨dep, hdep, ?_⟩
        rw [Bool.or_eq_true, beq_iff_eq]
        rcases hcase with rfl | ⟨rest, rfl⟩
        · exact Or.inl rfl
        · refine Or.inr ((startsWithL_iff _ _).2 ⟨rest, ?_⟩)
          simp only [List.append_assoc]
          rfl
  · exact ⟨rfl, rfl, rfl, rfl, rfl, rfl, rfl⟩
  · intro env fs options pkg cfgs hpkg hok cfg hc
    obtain ⟨pkg2, fcfgs, hpkg2, _, hmap, rfl⟩ := createConfig_ok_elim hok
    rw [hpkg] at hpkg2
    injection hpkg2 with hpkg2
    injection hpkg2 with hpkg2
    subst hpkg2
    rw [List.mem_append] at hc
    rcases hc with hc | hc
    · obtain ⟨fmt, _, hf⟩ := mapFormats_ok_mem hmap cfg hc
      exact (mkFormatConfig_ok_elim hf).2.1
    · split at hc
      · rw [List.mem_singleton] at hc
        subst hc
        rfl
      · cases hc

/-! ### C4: configuration errors -/

/-- C4: with `packageDir` absent, or with a `packageDir` whose directory has no
manifest file, `createConfig` raises a configuration error and returns no
descriptor list (the error result carries no descriptors at all). -/
theorem c4_config_errors (env : Env) (fs : ConfigFs) (options : BuildOptions) :
    (options.packageDir = none →
      createConfig env fs options = .error .packageDirRequired) ∧
    (∀ d, options.packageDir = some d → d ≠ [] → fs.pkgJson = none →
      createConfig env fs options = .error .packageJsonNotFound) := by
  constructor
  · intro h
    unfold createConfig
    rw [h]
    rfl
  · intro d hd hne hfs
    unfold createConfig
    rw [hd]
    have h1 : strTruthy (some d) = true := by
      unfold strTruthy
      simpa [List.isEmpty_iff] using hne
    rw [h1]
    have h2 : getPackageJson fs = .error .packageJsonNotFound := by
      unfold getPackageJson
      rw [hfs]
    simp only [Bool.not_true, Bool.false_eq_true, if_false, h2]

theorem c4_config_errors_witness :
    createConfig ⟨false⟩ sampleFs { sampleOpts with packageDir := none } =
      .error .packageDirRequired ∧
    createConfig ⟨false⟩ { sampleFs with pkgJson := none } sampleOpts =
      .error .packageJsonNotFound :=
  ⟨(c4_config_errors _ _ _).1 rfl,
   (c4_config_errors _ _ _).2 (str "/p") rfl (by decide) rfl⟩

/-! ### C8: badge updater is a no-op when files are missing -/

/-- C8: when the README file or the manifest file does not exist, the badge updater
returns normally, logs nothing and leaves the filesystem unchanged (in particular it
creates no README). -/
theorem c8_missing_files (gz : Str → Nat) (fs : ReadmeFs) (bundle : List Chunk)
    (h : fs.readme = none ∨ fs.pkgJson = none) :
    writeBundle gz fs bundle = (fs, []) := by
  unfold writeBundle
  rcases h with h | h <;> simp [h]

theorem c8_missing_files_witness :
    writeBundle (fun s => s.length) ⟨none, some (.ok samplePkg), true⟩ [] =
      (⟨none, some (.ok samplePkg), true⟩, []) ∧
    writeBundle (fun s => s.length) ⟨some (str "# T"), none, true⟩ [] =
      (⟨some (str "# T"), none, true⟩, []) :=
  ⟨c8_missing_files _ _ _ (Or.inl rfl), c8_missing_files _ _ _ (Or.inr rfl)⟩

/-! ### C9: badge-update errors are caught and logged -/

/-- C9: when both files exist, any exception raised by the badge updater's
read/compute/write body (malformed manifest JSON, I/O failure on the final write)
is caught: the updater logs one line to stderr, leaves the filesystem unchanged and
returns normally; on success it only rewrites the README and logs nothing. The
exception is never propagated (`writeBundle` is total and always returns a pair). -/
theorem c9_errors_caught (gz : Str → Nat) (fs : ReadmeFs) (bundle : List Chunk)
    (hr : fs.readme.isSome = true) (hp : fs.pkgJson.isSome = true) :
    (∀ e, writeBundleTry gz fs bundle = .error e →
      writeBundle gz fs bundle = (fs, [str "Failed to update README badges:"])) ∧
    (∀ c, writeBundleTry gz fs bundle = .ok c →
      writeBundle gz fs bundle = ({ fs with readme := some c }, [])) ∧
    (∀ u, fs.pkgJson = some (.error u) →
      writeBundleTry gz fs bundle = .error .jsonParse) ∧
    (∀ pkg, fs.pkgJson = some (.ok pkg) → fs.writeOk = false →
      writeBundleTry gz fs bundle = .error .ioError) := by
  obtain ⟨r, hrr⟩ := Option.isSome_iff_exists.1 hr
  obtain ⟨p, hpp⟩ := Option.isSome_iff_exists.1 hp
  have hguard : (fs.readme.isNone || fs.pkgJson.isNone) = false := by
    rw [hrr, hpp]
    rfl
  refine ⟨?_, ?_, ?_, ?_⟩
  · intro e he
    unfold writeBundle
    rw [hguard, he]
    rfl
  · intro c hc
    unfold writeBundle
    rw [hguard, hc]
    rfl
  · intro u hu
    unfold writeBundleTry
    rw [hu]
  · intro pkg hpkg hw
    unfold writeBundleTry
    rw [hpkg, hw]
    rfl

theorem c9_errors_caught_witness :
    writeBundle (fun s => s.length) ⟨some (str "# T"), some (.error ()), true⟩ [] =
      (⟨some (str "# T"), some (.error ()), true⟩,
        [str "Failed to update README badges:"]) ∧
    writeBundle (fun s => s.length)
        ⟨some (str "# T"), some (.ok samplePkg), false⟩ [] =
      (⟨some (str "# T"), some (.ok samplePkg), false⟩,
        [str "Failed to update README badges:"]) := by
  constructor
  · exact (c9_errors_caught (fun s => s.length)
        ⟨some (str "# T"), some (.error ()), true⟩ [] rfl rfl).1 .jsonParse
      ((c9_errors_caught (fun s => s.length)
        ⟨some (str "# T"), some (.error ()), true⟩ [] rfl rfl).2.2.1 () rfl)
  · exact (c9_errors_caught (fun s => s.length)
        ⟨some (str "# T"), some (.ok samplePkg), false⟩ [] rfl rfl).1 .ioError
      ((c9_errors_caught (fun s => s.length)
        ⟨some (str "# T"), some (.ok samplePkg), false⟩ [] rfl rfl).2.2.2 samplePkg rfl rfl)

/-! ### C10: umd/iife with no name and nameless manifest -/

theorem mapFormats_error_of_mem {f : Str → Except JsError RollupConfig} :
    ∀ {l : List Str},
      (∀ fmt ∈ l, f fmt = .error .typeErrorUndefined ∨ ∃ c, f fmt = .ok c) →
      (∃ fmt ∈ l, f fmt = .error .typeErrorUndefined) →
      mapFormats f l = .error .typeErrorUndefined := by
  intro l
  induction l with
  | nil => rintro _ ⟨fmt, hmem, _⟩; cases hmem
  | cons a rest ih =>
    rintro hall ⟨fmt, hmem, herr⟩
    unfold mapFormats
    rcases hall a (List.mem_cons_self a rest) with ha | ⟨c, hc⟩
    · rw [ha]
    · rw [hc]
      have hrest : ∃ g ∈ rest, f g = .error .typeErrorUndefined := by
        rcases List.mem_cons.1 hmem with rfl | hmem2
        · rw [hc] at herr; cases herr
        · exact ⟨fmt, hmem2, herr⟩
      rw [ih (fun g hg => hall g (List.mem_cons_of_mem a hg)) hrest]

/-- C10: when the requested formats include `umd` or `iife`, the caller supplies no
`name`, and the manifest has no `name` field, `createConfig` fails with an uncaught
exception raised by the name derivation (reading `.replace` of `undefined`) — an
error distinct from both documented configuration errors — and returns no
descriptors. -/
theorem c10_umd_missing_name (env : Env) (fs : ConfigFs) (options : BuildOptions)
    (pkg : PackageJson)
    (hpkg : fs.pkgJson = some (.ok pkg))
    (hname : pkg.name = none)
    (hopt : options.name = none)
    (hpd : strTruthy options.packageDir = true)
    (hfmt : str "umd" ∈ options.formats.getD [str "esm", str "cjs"] ∨
            str "iife" ∈ options.formats.getD [str "esm", str "cjs"]) :
    createConfig env fs options = .error .typeErrorUndefined ∧
    JsError.typeErrorUndefined ≠ JsError.packageDirRequired ∧
    JsError.typeErrorUndefined ≠ JsError.packageJsonNotFound := by
  refine ⟨?_, by decide, by decide⟩
  unfold createConfig
  rw [hpd]
  have hgp : getPackageJson fs = .ok pkg := by
    unfold getPackageJson
    rw [hpkg]
  simp only [Bool.not_true, Bool.false_eq_true, if_false, hgp]
  have hctxn : (ctxOf env fs options pkg).nameOpt = none := hopt
  have hctxp : (ctxOf env fs options pkg).pkg.name = none := hname
  have hmap : mapFormats (mkFormatConfig (ctxOf env fs options pkg))
      (options.formats.getD [str "esm", str "cjs"]) = .error .typeErrorUndefined := by
    apply mapFormats_error_of_mem
    · intro fmt _
      by_cases hu : fmt = str "umd" ∨ fmt = str "iife"
      · exact Or.inl (mkFormatConfig_umd_noName hu hctxn hctxp)
      · push_neg at hu
        exact Or.inr (mkFormatConfig_ok_of_ne hu.1 hu.2)
    · rcases hfmt with h | h
      · exact ⟨str "umd", h, mkFormatConfig_umd_noName (Or.inl rfl) hctxn hctxp⟩
      · exact ⟨str "iife", h, mkFormatConfig_umd_noName (Or.inr rfl) hctxn hctxp⟩
  rw [hmap]

theorem c10_umd_missing_name_witness :
    createConfig ⟨false⟩
      ⟨some (.ok ⟨none, some (str "1.0.0"), none, none⟩), true, true⟩
      { sampleOpts with formats := some [str "esm", str "umd"] } =
      .error .typeErrorUndefined :=
  (c10_umd_missing_name ⟨false⟩
    ⟨some (.ok ⟨none, some (str "1.0.0"), none, none⟩), true, true⟩
    { sampleOpts with formats := some [str "esm", str "umd"] }
    ⟨none, some (str "1.0.0"), none, none⟩
    rfl rfl rfl rfl (Or.inl (by decide))).1

theorem c1_external_classification_witness :
    (((createConfig ⟨false⟩ sampleFs sampleOpts).toOption.getD []).get
        ⟨0, by decide⟩).external =
      isExternal (externalDepsOf sampleOpts samplePkg) :=
  c1_external_classification.2.2 ⟨false⟩ sampleFs sampleOpts samplePkg
    ((createConfig ⟨false⟩ sampleFs sampleOpts).toOption.getD []) rfl rfl _
    (List.get_mem _ _ _)

/-! ### C2: one descriptor per format, declarations appended -/

theorem filterMap_id_map_some {α : Type} (xs : List α) (ys : List (Option α)) :
    ((xs.map some ++ ys).filterMap id) = xs ++ ys.filterMap id := by
  induction xs with
  | nil => rfl
  | cons a rest ih => simp only [List.map_cons, List.cons_append, List.filterMap_cons, id,
      ih]

/-- C2: `createConfig` emits one descriptor per requested format in the caller's
order (the i-th descriptor's output format equals the i-th requested format) and,
when `dts` is requested, appends exactly one extra declaration-bundling descriptor
carrying the same externality predicate as every other descriptor; with the default
formats `['esm','cjs']` and `dts` on, exactly 3 descriptors result, in order esm,
cjs, declarations. -/
theorem c2_descriptor_list :
    (∀ env fs options cfgs, createConfig env fs options = .ok cfgs →
      cfgs.length = (options.formats.getD [str "esm", str "cjs"]).length +
        (if options.dts.getD true then 1 else 0) ∧
      (∀ i (hi : i < (options.formats.getD [str "esm", str "cjs"]).length)
          (hc : i < cfgs.length),
        (cfgs.get ⟨i, hc⟩).output.format =
          (options.formats.getD [str "esm", str "cjs"]).get ⟨i, hi⟩) ∧
      (options.dts.getD true = true →
        ∃ pkg, fs.pkgJson = some (.ok pkg) ∧
          cfgs.getLast? = some (dtsConfigOf fs options pkg) ∧
          (dtsConfigOf fs options pkg).plugins =
            [.dtsPlugin (getTsConfigPath fs ((options.packageDir).getD [])) false] ∧
          (dtsConfigOf fs options pkg).output.file =
            some (pathResolve
              (pathResolve ((options.packageDir).getD []) (options.outputDir.getD (str "dist")))
              (str "index.d.ts")) ∧
          ∀ cfg ∈ cfgs, cfg.external = (dtsConfigOf fs options pkg).external)) ∧
    ((createConfig ⟨false⟩ sampleFs sampleOpts).toOption.getD []).length = 3 ∧
    (((createConfig ⟨false⟩ sampleFs sampleOpts).toOption.getD []).get
        ⟨0, by decide⟩).output.format = str "esm" ∧
    (((createConfig ⟨false⟩ sampleFs sampleOpts).toOption.getD []).get
        ⟨1, by decide⟩).output.format = str "cjs" ∧
    (((createConfig ⟨false⟩ sampleFs sampleOpts).toOption.getD []).get
        ⟨2, by decide⟩) = dtsConfigOf sampleFs sampleOpts samplePkg := by
  refine ⟨?_, by decide, rfl, rfl, rfl⟩
  intro env fs options cfgs hok
  obtain ⟨pkg, fcfgs, hpkg, _, hmap, rfl⟩ := createConfig_ok_elim hok
  have hlen := mapFormats_ok_length hmap
  refine ⟨?_, ?_, ?_⟩
  · rw [List.length_append, hlen]
    split <;> simp
  · intro i hi hc
    have hif : i < fcfgs.length := by omega
    have hget : (fcfgs ++ (if options.dts.getD true then [dtsConfigOf fs options pkg]
        else [])).get ⟨i, hc⟩ = fcfgs.get ⟨i, hif⟩ := List.get_append i hif
    rw [hget]
    have := mapFormats_ok_get hmap i hi hif
    exact mkFormatConfig_format this
  · intro hdts
    rw [hdts]
    refine ⟨pkg, hpkg, ?_, rfl, rfl, ?_⟩
    · simp only [if_true]
      exact List.getLast?_concat fcfgs
    · intro cfg hc
      simp only [if_true] at hc
      rw [List.mem_append] at hc
      rcases hc with hc | hc
      · obtain ⟨fmt, _, hf⟩ := mapFormats_ok_mem hmap cfg hc
        exact (mkFormatConfig_ok_elim hf).2.1
      · rw [List.mem_singleton] at hc
        subst hc
        rfl

theorem c2_descriptor_list_witness :
    ((createConfig ⟨false⟩ sampleFs sampleOpts).toOption.getD []).length =
      (sampleOpts.formats.getD [str "esm", str "cjs"]).length +
        (if sampleOpts.dts.getD true then 1 else 0) :=
  (c2_descriptor_list.1 ⟨false⟩ sampleFs sampleOpts
    ((createConfig ⟨false⟩ sampleFs sampleOpts).toOption.getD []) rfl).1

/-! ### C3: build-step order per format descriptor -/

/-- C3: every format descriptor's build steps are, in order: module resolution,
CommonJS interop, JSON import support, TypeScript compilation with declaration emit
disabled and base compiler target `ESNext` (maximal; caller `tsconfig` overrides are
appended after it), the optional Babel downleveling step, the optional terser
minification step (ES2018 output settings), the size-report step, and — exactly when
the format is esm/es and the watch flag is unset — the README badge updater as the
final step. -/
theorem c3_plugin_order (env : Env) (fs : ConfigFs) (options : BuildOptions)
    (cfgs : List RollupConfig) (fmt : Str) (i : Nat)
    (hok : createConfig env fs options = .ok cfgs)
    (hi : i < (options.formats.getD [str "esm", str "cjs"]).length)
    (hc : i < cfgs.length)
    (hfmt : (options.formats.getD [str "esm", str "cjs"]).get ⟨i, hi⟩ = fmt) :
    (cfgs.get ⟨i, hc⟩).plugins =
      [Plugin.nodeResolve [str ".ts", str ".tsx", str ".js", str ".jsx", str ".json"],
       Plugin.commonjs,
       Plugin.jsonPlugin,
       Plugin.typescript (getTsConfigPath fs ((options.packageDir).getD [])) false false
         (options.sourcemap.getD true)
         ([(str "target", str "ESNext"),
           (str "outDir", pathResolve ((options.packageDir).getD [])
             (options.outputDir.getD (str "dist"))),
           (str "rootDir", pathResolve ((options.packageDir).getD []) (str "src"))] ++
          options.tsconfig.getD [])]
      ++ (if options.babel.getD true then
            [Plugin.babelPlugin (str "bundled")
              [str ".ts", str ".tsx", str ".js", str ".jsx"]
              (str "node_modules/**") options.browserslist]
          else [])
      ++ (if options.minify.getD true then [Plugin.terser 2018 true 2018] else [])
      ++ [Plugin.filesize false false]
      ++ (if (fmt == str "esm" || fmt == str "es") && !env.rollupWatch then
            [Plugin.updateReadme ((options.packageDir).getD [])] else []) ∧
    ((cfgs.get ⟨i, hc⟩).plugins.getLast? =
        some (Plugin.updateReadme ((options.packageDir).getD [])) ↔
      (fmt = str "esm" ∨ fmt = str "es") ∧ env.rollupWatch = false) := by
  obtain ⟨pkg, fcfgs, hpkg, _, hmap, rfl⟩ := createConfig_ok_elim hok
  have hlen := mapFormats_ok_length hmap
  have hif : i < fcfgs.length := by omega
  have hget : (fcfgs ++ (if options.dts.getD true then [dtsConfigOf fs options pkg]
      else [])).get ⟨i, hc⟩ = fcfgs.get ⟨i, hif⟩ := List.get_append i hif
  have hmk := mapFormats_ok_get hmap i hi hif
  rw [hfmt] at hmk
  have hplug := (mkFormatConfig_ok_elim hmk).2.2.2
  have hbase :
      (ctxOf env fs options pkg).basePlugins =
        [Plugin.nodeResolve [str ".ts", str ".tsx", str ".js", str ".jsx", str ".json"],
         Plugin.commonjs,
         Plugin.jsonPlugin,
         Plugin.typescript (getTsConfigPath fs ((options.packageDir).getD [])) false false
           (options.sourcemap.getD true)
           ([(str "target", str "ESNext"),
             (str "outDir", pathResolve ((options.packageDir).getD [])
               (options.outputDir.getD (str "dist"))),
             (str "rootDir", pathResolve ((options.packageDir).getD []) (str "src"))] ++
            options.tsconfig.getD [])]
        ++ (if options.babel.getD true then
              [Plugin.babelPlugin (str "bundled")
                [str ".ts", str ".tsx", str ".js", str ".jsx"]
                (str "node_modules/**") options.browserslist]
            else []) := by
    have : (ctxOf env fs options pkg).basePlugins = basePluginsOf fs options := rfl
    rw [this]
    unfold basePluginsOf
    by_cases hb : options.babel.getD true = true <;>
      simp [hb, List.filterMap_cons]
  have hmin : (ctxOf env fs options pkg).minifyPlugin =
      if options.minify.getD true then some (.terser 2018 true 2018) else none := rfl
  have hplug2 : (fcfgs.get ⟨i, hif⟩).plugins =
      (ctxOf env fs options pkg).basePlugins
      ++ (if options.minify.getD true then [Plugin.terser 2018 true 2018] else [])
      ++ [Plugin.filesize false false]
      ++ (if (fmt == str "esm" || fmt == str "es") && !env.rollupWatch then
            [Plugin.updateReadme ((options.packageDir).getD [])] else []) := by
    rw [hplug, filterMap_id_map_some, hmin]
    have hw : (ctxOf env fs options pkg).watch = env.rollupWatch := rfl
    have hd : (ctxOf env fs options pkg).dir = (options.packageDir).getD [] := rfl
    rw [hw, hd]
    rcases Bool.eq_false_or_eq_true (options.minify.getD true) with hm | hm <;>
      rcases Bool.eq_false_or_eq_true
        ((fmt == str "esm" || fmt == str "es") && !env.rollupWatch) with hr | hr <;>
      simp [hm, hr, List.filterMap_cons, List.append_assoc]
  constructor
  · rw [hget, hplug2, hbase, List.append_assoc, List.append_assoc, List.append_assoc]
  · rw [hget, hplug2]
    by_cases hr : ((fmt == str "esm" || fmt == str "es") && !env.rollupWatch) = true
    · rw [hr]
      simp only [if_true]
      rw [List.getLast?_append_of_ne_nil _ (by simp)]
      simp only [List.getLast?_singleton, true_iff]
      rw [Bool.and_eq_true, Bool.or_eq_true, beq_iff_eq, beq_iff_eq,
        Bool.not_eq_true'] at hr
      exact ⟨hr.1, hr.2⟩
    · simp only [hr, Bool.false_eq_true, if_false, List.append_nil]
      rw [List.getLast?_append_of_ne_nil _ (by simp)]
      constructor
      · intro hx
        simp at hx
      · intro hx
        rw [Bool.and_eq_true, Bool.or_eq_true, beq_iff_eq, beq_iff_eq,
          Bool.not_eq_true'] at hr
        exact absurd ⟨hx.1, hx.2⟩ hr

theorem c3_plugin_order_witness :
    (((createConfig ⟨false⟩ sampleFs sampleOpts).toOption.getD []).get
        ⟨0, by decide⟩).plugins.getLast? =
      some (Plugin.updateReadme ((sampleOpts.packageDir).getD [])) :=
  (c3_plugin_order ⟨false⟩ sampleFs sampleOpts
    ((createConfig ⟨false⟩ sampleFs sampleOpts).toOption.getD []) (str "esm") 0
    rfl (by decide) (by decide) rfl).2.2 ⟨Or.inl rfl, rfl⟩

/-! ### C5: PascalCase name derivation -/

theorem splitAtLastSlash_none {l : Str} (h : '/' ∉ l) : splitAtLastSlash l = none := by
  induction l with
  | nil => rfl
  | cons c rest ih =>
    unfold splitAtLastSlash
    rw [ih (fun hm => h (List.mem_cons_of_mem c hm))]
    have hc : (c == '/') = false := by
      rw [beq_eq_false_iff_ne]
      intro hc
      exact h (by rw [hc]; exact List.mem_cons_self _ _)
    rw [hc]
    rfl

theorem splitAtLastSlash_single {a b : Str} (ha : '/' ∉ a) (hb : '/' ∉ b) :
    splitAtLastSlash (a ++ '/' :: b) = some (a, b) := by
  induction a with
  | nil =>
    rw [List.nil_append]
    simp only [splitAtLastSlash]
    rw [splitAtLastSlash_none hb]
    rfl
  | cons c arest ih =>
    rw [List.cons_append]
    simp only [splitAtLastSlash]
    rw [ih (fun hm => ha (List.mem_cons_of_mem c hm))]

theorem splitAtFirstSlash_none {l : Str} (h : '/' ∉ l) : splitAtFirstSlash l = none := by
  induction l with
  | nil => rfl
  | cons c rest ih =>
    unfold splitAtFirstSlash
    have hc : ¬(c = '/') := fun hc => h (by rw [hc]; exact List.mem_cons_self _ _)
    rw [if_neg hc, ih (fun hm => h (List.mem_cons_of_mem c hm))]
    rfl

theorem splitAtFirstSlash_single {a : Str} (b : Str) (ha : '/' ∉ a) :
    splitAtFirstSlash (a ++ '/' :: b) = some (a, b) := by
  induction a with
  | nil => simp [splitAtFirstSlash]
  | cons c arest ih =>
    have hc : ¬(c = '/') := fun hc => ha (by rw [hc]; exact List.mem_cons_self _ _)
    rw [List.cons_append]
    unfold splitAtFirstSlash
    rw [if_neg hc, ih (fun hm => ha (List.mem_cons_of_mem c hm))]
    rfl

theorem splitAtFirstSlash_some {l a b : Str} (h : splitAtFirstSlash l = some (a, b)) :
    l = a ++ '/' :: b := by
  induction l generalizing a b with
  | nil => cases h
  | cons c rest ih =>
    unfold splitAtFirstSlash at h
    split at h
    · rename_i hc
      cases h
      rw [hc]
      rfl
    · rw [Option.map_eq_some'] at h
      obtain ⟨⟨a1, b1⟩, h1, h2⟩ := h
      cases h2
      rw [List.cons_append, ← ih h1]

theorem stripScope_at (rest : Str) :
    stripScope ('@' :: rest) =
      match splitAtLastSlash (rest.takeWhile regexDot) with
      | some (_, b) => b ++ rest.dropWhile regexDot
      | none => '@' :: rest := rfl

theorem stripScopeSpec_at (rest : Str) :
    stripScopeSpec ('@' :: rest) =
      match splitAtFirstSlash rest with
      | some (_, r) => r
      | none => '@' :: rest := rfl

theorem stripScope_ne {c : Char} (rest : Str) (h : c ≠ '@') :
    stripScope (c :: rest) = c :: rest := by
  rw [stripScope.eq_def]
  split <;> simp_all

theorem stripScopeSpec_ne {c : Char} (rest : Str) (h : c ≠ '@') :
    stripScopeSpec (c :: rest) = c :: rest := by
  rw [stripScopeSpec.eq_def]
  split <;> simp_all

theorem stripScope_eq_spec {nm : Str} (h1 : ∀ c ∈ nm, regexDot c = true)
    (h2 : nm.count '/' ≤ 1) : stripScope nm = stripScopeSpec nm := by
  cases nm with
  | nil => rfl
  | cons c0 rest =>
    by_cases hc0 : c0 = '@'
    · subst hc0
      have htw : rest.takeWhile regexDot = rest :=
        List.takeWhile_eq_self_iff.mpr (fun c hm => h1 c (List.mem_cons_of_mem _ hm))
      have hdw : rest.dropWhile regexDot = [] :=
        List.dropWhile_eq_nil_iff.mpr (fun c hm => h1 c (List.mem_cons_of_mem _ hm))
      by_cases hs : '/' ∈ rest
      · obtain ⟨a, b, rfl⟩ := List.mem_iff_append.mp hs
        have hcn : ('@' :: (a ++ '/' :: b)).count '/' =
            a.count '/' + b.count '/' + 1 := by
          rw [List.count_cons_of_ne (by decide), List.count_append, List.count_cons_self]
          omega
        rw [hcn] at h2
        have ha : '/' ∉ a := List.count_eq_zero.mp (by omega)
        have hb : '/' ∉ b := List.count_eq_zero.mp (by omega)
        rw [stripScope_at, stripScopeSpec_at, htw, hdw,
          splitAtLastSlash_single ha hb, splitAtFirstSlash_single b ha]
        simp
      · rw [stripScope_at, stripScopeSpec_at, htw,
          splitAtLastSlash_none hs, splitAtFirstSlash_none hs]
    · rw [stripScope_ne rest hc0, stripScopeSpec_ne rest hc0]

theorem pascalSpecCore_cons_ne {c : Char} {t : Str} (h1 : c ≠ '-') (h2 : c ≠ '_') :
    pascalSpecCore (c :: t) = c :: pascalSpecCore t := by
  rw [pascalSpecCore.eq_def]
  split <;> simp_all

theorem pascalSpecCore_singleton (c : Char) : pascalSpecCore [c] = [c] := by
  rw [pascalSpecCore.eq_def]
  split <;> simp_all [pascalSpecCore]

theorem replaceSeps_eq_core : ∀ (m : Str), (∀ c ∈ m, regexDot c = true) →
    replaceSeps m = pascalSpecCore m := by
  intro m
  induction m using replaceSeps.induct with
  | case1 => intro _; rfl
  | case2 c => intro _; rw [pascalSpecCore_singleton]; rfl
  | case3 c d rest2 hsep hdot ih =>
    intro h
    have hrs : replaceSeps (c :: d :: rest2) = d.toUpper :: replaceSeps rest2 := by
      rw [replaceSeps]
      simp only [hsep, hdot, if_true]
    have hcs : c = '-' ∨ c = '_' := by
      have hx := hsep
      rw [Bool.or_eq_true, beq_iff_eq, beq_iff_eq] at hx
      exact hx
    have hcore : pascalSpecCore (c :: d :: rest2) = d.toUpper :: pascalSpecCore rest2 := by
      rcases hcs with rfl | rfl <;> rfl
    rw [hrs, hcore, ih (fun x hx => h x (by simp [hx]))]
  | case4 c d rest2 hsep hdot ih =>
    intro h
    exact absurd (h d (by simp)) hdot
  | case5 c d rest2 hsep ih =>
    intro h
    have hcs : c ≠ '-' ∧ c ≠ '_' := by
      rw [Bool.not_eq_true, Bool.or_eq_false_iff, beq_eq_false_iff_ne,
        beq_eq_false_iff_ne] at hsep
      exact hsep
    have hrs : replaceSeps (c :: d :: rest2) = c :: replaceSeps (d :: rest2) := by
      rw [replaceSeps]
      simp only [Bool.not_eq_true] at hsep
      simp only [hsep, Bool.false_eq_true, if_false]
    rw [hrs, pascalSpecCore_cons_ne hcs.1 hcs.2, ih (fun x hx => h x (by simp [hx]))]

theorem stripScopeSpec_subset (nm : Str) : ∀ c ∈ stripScopeSpec nm, c ∈ nm := by
  cases nm with
  | nil => intro c hc; exact hc
  | cons c0 rest =>
    by_cases hc0 : c0 = '@'
    · subst hc0
      rw [stripScopeSpec_at]
      cases hsp : splitAtFirstSlash rest with
      | none => intro c hc; exact hc
      | some p =>
        obtain ⟨a, b⟩ := p
        have hdec := splitAtFirstSlash_some hsp
        intro c hc
        rw [hdec]
        exact List.mem_cons_of_mem _
          (List.mem_append_right a (List.mem_cons_of_mem _ hc))
    · rw [stripScopeSpec_ne rest hc0]
      intro c hc
      exact hc

/-- C5: a umd/iife descriptor built with no caller-supplied name exposes the code's
PascalCase derivation `toPascalCase (stripScope name)` of the manifest name; on
names made of ordinary characters (no line terminators), with at most one slash and
not starting with a separator after scope-stripping, this agrees with the spec's
derivation rule (`pascalSpec`); in particular `@scope/my-lib` yields `MyLib`. -/
theorem c5_pascal_name :
    (∀ env fs options cfgs pkg nm fmt i
        (hi : i < (options.formats.getD [str "esm", str "cjs"]).length)
        (hc : i < cfgs.length),
      fs.pkgJson = some (.ok pkg) → pkg.name = some nm → options.name = none →
      createConfig env fs options = .ok cfgs →
      (options.formats.getD [str "esm", str "cjs"]).get ⟨i, hi⟩ = fmt →
      (fmt = str "umd" ∨ fmt = str "iife") →
      (cfgs.get ⟨i, hc⟩).output.name = some (toPascalCase (stripScope nm))) ∧
    (∀ nm, (∀ c ∈ nm, regexDot c = true) → nm.count '/' ≤ 1 →
      (∀ c t, stripScopeSpec nm = c :: t → c ≠ '-' ∧ c ≠ '_') →
      toPascalCase (stripScope nm) = pascalSpec nm) ∧
    toPascalCase (stripScope (str "@scope/my-lib")) = str "MyLib" ∧
    pascalSpec (str "@scope/my-lib") = str "MyLib" := by
  refine ⟨?_, ?_, by decide, by decide⟩
  · intro env fs options cfgs pkg nm fmt i hi hc hpkg hnm hname hok hfmt humd
    obtain ⟨pkg2, fcfgs, hpkg2, _, hmap, rfl⟩ := createConfig_ok_elim hok
    rw [hpkg] at hpkg2
    injection hpkg2 with hpkg2
    injection hpkg2 with hpkg2
    subst hpkg2
    have hlen := mapFormats_ok_length hmap
    have hif : i < fcfgs.length := by omega
    have hget : (fcfgs ++ (if options.dts.getD true then [dtsConfigOf fs options pkg]
        else [])).get ⟨i, hc⟩ = fcfgs.get ⟨i, hif⟩ := List.get_append i hif
    have hmk := mapFormats_ok_get hmap i hi hif
    rw [hfmt] at hmk
    obtain ⟨nm2, hnm2, hout⟩ := mkFormatConfig_umd_name humd hname hmk
    have : pkg.name = some nm2 := hnm2
    rw [hnm] at this
    injection this with this
    subst this
    rw [hget, hout]
  · intro nm h1 h2 h3
    rw [toPascalCase, stripScope_eq_spec h1 h2,
      replaceSeps_eq_core _ (fun c hm => h1 c (stripScopeSpec_subset nm c hm))]
    unfold pascalSpec
    cases hm : stripScopeSpec nm with
    | nil => rfl
    | cons c t =>
      obtain ⟨hc1, hc2⟩ := h3 c t hm
      rw [pascalSpecCore_cons_ne hc1 hc2]
      have hrc : regexDot c = true :=
        h1 c (stripScopeSpec_subset nm c (by rw [hm]; exact List.mem_cons_self _ _))
      simp [upperFirst, hrc]

theorem c5_pascal_name_witness :
    (((createConfig ⟨false⟩ sampleFs
          { sampleOpts with formats := some [str "umd"] }).toOption.getD []).get
        ⟨0, by decide⟩).output.name =
      some (toPascalCase (stripScope (str "@scope/my-lib"))) :=
  c5_pascal_name.1 ⟨false⟩ sampleFs { sampleOpts with formats := some [str "umd"] }
    ((createConfig ⟨false⟩ sampleFs
        { sampleOpts with formats := some [str "umd"] }).toOption.getD [])
    samplePkg (str "@scope/my-lib") (str "umd") 0 (by decide) (by decide)
    rfl rfl rfl rfl rfl (Or.inl rfl)

/-! ### Regex-match lemmas for the two badge patterns -/

theorem takeWhile_run {run : Str} (rest : Str) (h : ')' ∉ run) :
    (run ++ ')' :: rest).takeWhile (· != ')') = run ∧
    (run ++ ')' :: rest).dropWhile (· != ')') = ')' :: rest := by
  induction run with
  | nil =>
    constructor <;> simp [List.takeWhile_cons, List.dropWhile_cons]
  | cons c cs ih =>
    have hc : (c != ')') = true := by
      rw [bne_iff_ne]
      intro hcc
      exact h (by rw [hcc]; exact List.mem_cons_self _ _)
    obtain ⟨ih1, ih2⟩ := ih (fun hm => h (List.mem_cons_of_mem c hm))
    constructor <;>
      simp [List.takeWhile_cons, List.dropWhile_cons, hc, ih1, ih2]

theorem matchAt_some_iff {head s m r : Str} :
    matchAt head s = some (m, r) ↔
      ∃ run, run ≠ [] ∧ ')' ∉ run ∧ s = head ++ run ++ ')' :: r ∧
        m = head ++ run ++ [')'] := by
  constructor
  · intro h
    unfold matchAt at h
    split at h
    · rename_i hsw
      split at h
      · cases h
      · rename_i hrun
        split at h
        · rename_i rest3 hdrop
          cases h
          obtain ⟨t, ht⟩ := (startsWithL_iff _ _).1 hsw
          have hdl : s.drop head.length = t := by
            rw [ht, List.drop_left]
          rw [hdl] at hdrop hrun ⊢
          refine ⟨t.takeWhile (· != ')'), ?_, ?_, ?_, rfl⟩
          · intro hnil
            rw [hnil] at hrun
            exact hrun rfl
          · intro hmem
            have := List.mem_takeWhile_imp hmem
            simp at this
          · rw [ht, ← hdrop, List.append_assoc, List.takeWhile_append_dropWhile]
        · cases h
    · cases h
  · rintro ⟨run, hne, hmem, rfl, rfl⟩
    have hsw : startsWithL head (head ++ run ++ ')' :: r) = true := by
      rw [List.append_assoc]
      exact startsWithL_same _ _
    have hdl : (head ++ run ++ ')' :: r).drop head.length = run ++ ')' :: r := by
      rw [List.append_assoc, List.drop_left]
    obtain ⟨htw, hdw⟩ := takeWhile_run r hmem
    unfold matchAt
    rw [hsw, if_pos rfl, hdl, htw, hdw]
    have hemp : run.isEmpty = false := by
      cases run with
      | nil => exact absurd rfl hne
      | cons a as => rfl
    rw [hemp]
    rfl

theorem matchAt_none_of_not_starts {head s : Str} (h : startsWithL head s = false) :
    matchAt head s = none := by
  unfold matchAt
  rw [h]
  rfl

theorem findMatch_eq_none {head s : Str} (h : ∀ i, matchAt head (s.drop i) = none) :
    findMatch head s = none := by
  induction s with
  | nil =>
    have h0 := h 0
    rw [List.drop_nil] at h0
    unfold findMatch
    rw [h0]
  | cons c rest ih =>
    have h0 := h 0
    rw [List.drop_zero] at h0
    unfold findMatch
    rw [h0, ih (fun i => by have := h (i + 1); rwa [List.drop_succ_cons] at this)]

theorem findMatch_none_starts {head s : Str} (h : findMatch head s = none) :
    ∀ i, matchAt head (s.drop i) = none := by
  induction s with
  | nil =>
    intro i
    rw [List.drop_nil]
    unfold findMatch at h
    split at h
    · cases h
    · assumption
  | cons c rest ih =>
    unfold findMatch at h
    split at h
    · cases h
    · rename_i h0
      intro i
      cases i with
      | zero => rwa [List.drop_zero]
      | succ j =>
        rw [List.drop_succ_cons]
        split at h
        · cases h
        · exact ih (by assumption) j

theorem findMatch_found {head : Str} :
    ∀ (pre rest m r : Str),
      (∀ i, i < pre.length → matchAt head ((pre ++ rest).drop i) = none) →
      matchAt head rest = some (m, r) →
      findMatch head (pre ++ rest) = some (pre, m, r) := by
  intro pre
  induction pre with
  | nil =>
    intro rest m r _ hm
    rw [List.nil_append]
    cases rest with
    | nil =>
      unfold findMatch
      rw [hm]
    | cons c cs =>
      unfold findMatch
      rw [hm]
  | cons c cs ih =>
    intro rest m r hpre hm
    have h0 := hpre 0 (by simp)
    rw [List.drop_zero, List.cons_append] at h0
    rw [List.cons_append]
    unfold findMatch
    rw [h0, ih rest m r
      (fun i hi => by
        have := hpre (i + 1) (by simpa using Nat.succ_lt_succ hi)
        rwa [List.cons_append, List.drop_succ_cons] at this) hm]

theorem findMatch_some_spec {head : Str} :
    ∀ {s p m r : Str}, findMatch head s = some (p, m, r) →
      s = p ++ m ++ r ∧ matchAt head (m ++ r) = some (m, r) ∧
      ∀ i, i < p.length → matchAt head (s.drop i) = none := by
  intro s
  induction s with
  | nil =>
    intro p m r h
    unfold findMatch at h
    cases hma : matchAt head ([] : Str) with
    | some mr =>
      obtain ⟨m0, r0⟩ := mr
      obtain ⟨run, hne, _, habs, _⟩ := matchAt_some_iff.1 hma
      exact absurd habs (by simp)
    | none =>
      rw [hma] at h
      cases h
  | cons c rest ih =>
    intro p m r h
    unfold findMatch at h
    cases hma : matchAt head (c :: rest) with
    | some mr =>
      obtain ⟨m0, r0⟩ := mr
      rw [hma] at h
      cases h
      obtain ⟨run, hne, hmem, hs, hm⟩ := matchAt_some_iff.1 hma
      have hmr2 : m ++ r = c :: rest := by
        rw [hm, hs]
        simp [List.append_assoc]
      refine ⟨by rw [List.nil_append, hmr2], by rwa [hmr2], ?_⟩
      intro i hi
      simp at hi
    | none =>
      rw [hma] at h
      cases hfm : findMatch head rest with
      | some pmr =>
        obtain ⟨p0, m0, r0⟩ := pmr
        rw [hfm] at h
        cases h
        obtain ⟨hs, hmm, hnone⟩ := ih hfm
        refine ⟨by rw [hs]; simp [List.append_assoc], hmm, ?_⟩
        intro i hi
        cases i with
        | zero => rwa [List.drop_zero]
        | succ j =>
          rw [List.drop_succ_cons]
          exact hnone j (by simpa using hi)
      | none =>
        rw [hfm] at h
        cases h

/-! ### Line splitting and joining lemmas -/

theorem splitLines_ne_nil (s : Str) : splitLines s ≠ [] := by
  induction s using splitLines.induct with
  | case1 => exact nofun
  | case2 rest ih => exact nofun
  | case3 rest ih => exact nofun
  | case4 c rest h1 h2 hsp => simp [splitLines, hsp]
  | case5 c rest h1 h2 l ls hsp => simp [splitLines, hsp]

theorem splitLines_head (s : Str) :
    ∃ l ls t, splitLines s = l :: ls ∧ s = l ++ t := by
  induction s using splitLines.induct with
  | case1 => exact ⟨[], [], [], rfl, rfl⟩
  | case2 rest ih => exact ⟨[], splitLines rest, '\r' :: '\n' :: rest, rfl, rfl⟩
  | case3 rest ih => exact ⟨[], splitLines rest, '\n' :: rest, rfl, rfl⟩
  | case4 c rest h1 h2 hsp ih => exact absurd hsp (splitLines_ne_nil rest)
  | case5 c rest h1 h2 l ls hsp ih =>
    obtain ⟨l0, ls0, t0, hsp0, hpre⟩ := ih
    rw [hsp] at hsp0
    injection hsp0 with e1 e2
    subst e1
    subst e2
    refine ⟨c :: l, ls, t0, ?_, by rw [hpre]; rfl⟩
    simp [splitLines, hsp]

theorem mem_splitLines_no_nl : ∀ (s : Str), ∀ l ∈ splitLines s, '\n' ∉ l := by
  intro s
  induction s using splitLines.induct with
  | case1 =>
    intro l hl
    simp only [splitLines, List.mem_singleton] at hl
    subst hl
    exact List.not_mem_nil '\n'
  | case2 rest ih =>
    intro l hl
    simp only [splitLines] at hl
    rcases List.mem_cons.1 hl with rfl | hl2
    · exact List.not_mem_nil '\n'
    · exact ih l hl2
  | case3 rest ih =>
    intro l hl
    simp only [splitLines] at hl
    rcases List.mem_cons.1 hl with rfl | hl2
    · exact List.not_mem_nil '\n'
    · exact ih l hl2
  | case4 c rest h1 h2 hsp ih => exact absurd hsp (splitLines_ne_nil rest)
  | case5 c rest h1 h2 l0 ls0 hsp ih =>
    intro l hl
    have hred : splitLines (c :: rest) = (c :: l0) :: ls0 := by
      simp [splitLines, hsp]
    rw [hred] at hl
    rcases List.mem_cons.1 hl with rfl | hl2
    · intro hmem
      rcases List.mem_cons.1 hmem with hc | hmem2
      · exact h2 (hc.symm ▸ rfl)
      · exact ih l0 (by rw [hsp]; exact List.mem_cons_self _ _) hmem2
    · exact ih l (by rw [hsp]; exact List.mem_cons_of_mem _ hl2)

theorem mem_splitLines_occursIn {pat : Str} :
    ∀ (s : Str), ∀ l ∈ splitLines s, OccursIn pat l → OccursIn pat s := by
  intro s
  induction s using splitLines.induct with
  | case1 =>
    intro l hl ho
    simp only [splitLines, List.mem_singleton] at hl
    subst hl
    have := occursIn_nil ho
    subst this
    exact ⟨[], [], rfl⟩
  | case2 rest ih =>
    intro l hl ho
    simp only [splitLines] at hl
    rcases List.mem_cons.1 hl with rfl | hl2
    · have := occursIn_nil ho
      subst this
      exact ⟨[], '\r' :: '\n' :: rest, rfl⟩
    · exact occursIn_append_right ['\r', '\n'] (ih l hl2 ho)
  | case3 rest ih =>
    intro l hl ho
    simp only [splitLines] at hl
    rcases List.mem_cons.1 hl with rfl | hl2
    · have := occursIn_nil ho
      subst this
      exact ⟨[], '\n' :: rest, rfl⟩
    · exact occursIn_append_right ['\n'] (ih l hl2 ho)
  | case4 c rest h1 h2 hsp ih => exact absurd hsp (splitLines_ne_nil rest)
  | case5 c rest h1 h2 l0 ls0 hsp ih =>
    intro l hl ho
    have hred : splitLines (c :: rest) = (c :: l0) :: ls0 := by
      simp [splitLines, hsp]
    rw [hred] at hl
    rcases List.mem_cons.1 hl with rfl | hl2
    · -- occurrence in the head line c :: l0, which is a prefix of c :: rest
      obtain ⟨lh, lsh, t, hsph, hpre⟩ := splitLines_head rest
      rw [hsp] at hsph
      injection hsph with e1 e2
      subst e1
      obtain ⟨a, b, hab⟩ := ho
      refine ⟨a, b ++ t, ?_⟩
      rw [hpre]
      have : (c : Char) :: (l0 ++ t) = (c :: l0) ++ t := rfl
      rw [this, hab]
      simp [List.append_assoc]
    · exact occursIn_append_right [c] (ih l (by rw [hsp]; exact List.mem_cons_of_mem _ hl2) ho)

theorem joinLines_cons (l : Str) (ls : List Str) (h : ls ≠ []) :
    joinLines (l :: ls) = l ++ '\n' :: joinLines ls := by
  cases ls with
  | nil => exact absurd rfl h
  | cons a as => rfl

theorem joinLines_decomp (xs : List Str) (y : Str) (ys : List Str) :
    joinLines (xs ++ y :: ys) =
      (xs.map fun l => l ++ ['\n']).join ++ y ++
        (if ys.isEmpty then [] else '\n' :: joinLines ys) := by
  induction xs with
  | nil =>
    cases ys with
    | nil => simp [joinLines]
    | cons a as =>
      rw [List.nil_append, joinLines_cons y (a :: as) (by exact nofun)]
      simp
  | cons x xs ih =>
    rw [List.cons_append, joinLines_cons x (xs ++ y :: ys) (by simp), ih]
    simp [List.append_assoc]

theorem occursIn_joinLines_of_mem {pat : Str} :
    ∀ (ps : List Str), ∀ p ∈ ps, OccursIn pat p → OccursIn pat (joinLines ps) := by
  intro ps
  induction ps with
  | nil => intro p hp; cases hp
  | cons l ls ih =>
    intro p hp ho
    cases ls with
    | nil =>
      rw [List.mem_singleton] at hp
      subst hp
      exact ho
    | cons a as =>
      rw [joinLines_cons l (a :: as) (by exact nofun)]
      rcases List.mem_cons.1 hp with rfl | hp2
      · exact occursIn_append_left _ ho
      · have := ih p hp2 ho
        obtain ⟨u, v, huv⟩ := this
        exact ⟨l ++ '\n' :: u, v, by rw [huv]; simp⟩

theorem mem_last_drop (y : Str) (c : Char) (m : Nat) (h : m ≤ y.length) :
    c ∈ (y ++ [c]).drop m := by
  rw [drop_append_of_le h]
  exact List.mem_append_right _ (List.mem_singleton.2 rfl)

theorem occursIn_map_join {pat : Str} (hnl : '\n' ∉ pat) (hne : pat ≠ []) :
    ∀ (xs : List Str), OccursIn pat ((xs.map fun l => l ++ ['\n']).join) →
      ∃ x ∈ xs, OccursIn pat x := by
  intro xs
  induction xs with
  | nil =>
    intro h
    exact absurd (occursIn_nil h) hne
  | cons x rest ih =>
    intro h
    rw [List.map_cons] at h
    replace h : OccursIn pat ((x ++ ['\n']) ++ (List.map (fun l => l ++ ['\n']) rest).join) := h
    rcases occursIn_append_elim h with h1 | h1 | ⟨i, k, hk0, hklen, hlen, hdrop, hsw⟩
    · -- inside x ++ ['\n']
      rcases occursIn_append_elim h1 with h2 | h2 | ⟨i, k, hk0, hklen, hlen, hdrop, hsw⟩
      · exact ⟨x, List.mem_cons_self _ _, h2⟩
      · -- inside ['\n']
        obtain ⟨a, b, hab⟩ := h2
        have : pat = [] ∨ pat = ['\n'] := by
          cases a <;> cases pat <;> simp_all
        rcases this with rfl | rfl
        · exact absurd rfl hne
        · exact absurd (List.mem_singleton.2 rfl) hnl
      · -- straddle x / ['\n']: pat.drop k is a nonempty prefix of ['\n']
        obtain ⟨t, ht⟩ := (startsWithL_iff _ _).1 hsw
        have hmem : '\n' ∈ pat.drop k := by
          cases hdk : pat.drop k with
          | nil =>
            have := congrArg List.length hdk
            rw [List.length_drop] at this
            simp at this
            omega
          | cons a as =>
            rw [hdk] at ht
            injection ht with e1 e2
            rw [← e1]
            exact List.mem_cons_self _ _
        exact absurd (List.drop_subset k pat hmem) hnl
    · obtain ⟨y, hy, hoy⟩ := ih h1
      exact ⟨y, List.mem_cons_of_mem x hy, hoy⟩
    · -- straddle (x ++ ['\n']) / join rest: the suffix of x ++ ['\n'] contains '\n'
      have hile : i ≤ x.length := by
        rw [List.length_append] at hlen
        simp at hlen
        omega
      have hmem : '\n' ∈ (x ++ ['\n']).drop i := mem_last_drop x '\n' i hile
      rw [hdrop] at hmem
      exact absurd (List.take_subset k pat hmem) hnl

theorem insertAt_eq {α : Type} : ∀ (n : Nat) (x : α) (l : List α),
    insertAt n x l = l.take n ++ x :: l.drop n := by
  intro n
  induction n with
  | zero => intro x l; cases l <;> rfl
  | succ m ih =>
    intro x l
    cases l with
    | nil => rfl
    | cons c cs =>
      show c :: insertAt m x cs = _
      rw [ih x cs]
      rfl

/-! ### Character sets of the generated badge text -/

theorem digitChar_mem (n : Nat) :
    digitChar n ∈ ['0', '1', '2', '3', '4', '5', '6', '7', '8', '9'] := by
  unfold digitChar
  split <;> decide

theorem natChars_mem (n : Nat) :
    ∀ c ∈ natChars n, c ∈ ['0', '1', '2', '3', '4', '5', '6', '7', '8', '9'] := by
  induction n using Nat.strong_induction_on with
  | _ n ih =>
    rw [natChars]
    split
    · intro c hc
      rw [List.mem_singleton] at hc
      subst hc
      exact digitChar_mem n
    · rename_i hge
      intro c hc
      rw [List.mem_append] at hc
      rcases hc with h | h
      · exact ih (n / 10) (Nat.div_lt_self (by omega) (by omega)) c h
      · rw [List.mem_singleton] at h
        subst h
        exact digitChar_mem _

theorem sizeFixed2_mem (size : Nat) :
    ∀ c ∈ sizeFixed2 size, c ∈ ['0', '1', '2', '3', '4', '5', '6', '7', '8', '9', '.'] := by
  unfold sizeFixed2
  intro c hc
  have hdig : ∀ x, x ∈ ['0', '1', '2', '3', '4', '5', '6', '7', '8', '9'] →
      x ∈ ['0', '1', '2', '3', '4', '5', '6', '7', '8', '9', '.'] := by
    intro x hx
    simp only [List.mem_cons, List.mem_singleton] at hx ⊢
    tauto
  rw [List.mem_append] at hc
  rcases hc with h | h
  · exact hdig c (natChars_mem _ c h)
  · rcases List.mem_cons.1 h with rfl | h2
    · simp
    · split at h2
      · rcases List.mem_cons.1 h2 with rfl | h3
        · simp
        · rw [List.mem_singleton] at h3
          subst h3
          exact hdig _ (digitChar_mem _)
      · exact hdig c (natChars_mem _ c h2)

theorem szStr_chars (size : Nat) :
    ∀ c ∈ sizeFixed2 size ++ str "kB",
      c ∈ ['0', '1', '2', '3', '4', '5', '6', '7', '8', '9', '.', 'k', 'B'] := by
  intro c hc
  rw [List.mem_append] at hc
  rcases hc with h | h
  · have := sizeFixed2_mem size c h
    simp only [List.mem_cons, List.mem_singleton] at this ⊢
    tauto
  · rcases List.mem_cons.1 h with rfl | h2
    · simp
    · rw [List.mem_singleton] at h2
      subst h2
      simp

theorem szStr_no_paren (size : Nat) : ')' ∉ sizeFixed2 size ++ str "kB" := by
  intro h
  have := szStr_chars size ')' h
  exact absurd this (by decide)

theorem szStr_no_bang (size : Nat) : '!' ∉ sizeFixed2 size ++ str "kB" := by
  intro h
  have := szStr_chars size '!' h
  exact absurd this (by decide)

/-! ### Position helpers for the badge patterns -/

theorem mem_of_startsAt_head {c : Char} {p s : Str} {i : Nat}
    (h : StartsAt (c :: p) s i) : c ∈ s.drop i := by
  obtain ⟨u, hu⟩ := startsWithL_head (h : startsWithL _ _ = true)
  rw [hu]
  exact List.mem_cons_self _ _

theorem drop_subset_drop_one {s : Str} {i : Nat} (h : 1 ≤ i) : s.drop i ⊆ s.drop 1 := by
  intro x hx
  have heq : s.drop i = (s.drop 1).drop (i - 1) := by
    rw [List.drop_drop]
    congr 1
    omega
  rw [heq] at hx
  exact List.drop_subset _ _ hx

theorem starts_cons_ne {a b : Char} {p x : Str} (h : a ≠ b) :
    startsWithL (a :: p) (b :: x) = false := by
  simp [startsWithL, h]

theorem no_starts_short {pat s : Str} (h : s.length < pat.length) :
    ∀ j, ¬ StartsAt pat s j := by
  intro j hj
  have h1 := startsWithL_length hj
  rw [List.length_drop] at h1
  omega

theorem no_starts_of_not_occurs {pat s : Str} (h : ¬ OccursIn pat s) :
    ∀ j, ¬ StartsAt pat s j :=
  fun j hj => h ((occursIn_iff pat s).2 ⟨j, hj⟩)

theorem occursIn_singleton {pat : Str} {c : Char} (h : OccursIn pat [c]) :
    pat = [] ∨ pat = [c] := by
  obtain ⟨a, b, hab⟩ := h
  cases a with
  | nil =>
    cases pat with
    | nil => exact Or.inl rfl
    | cons x xs =>
      rw [List.nil_append] at hab
      injection hab with e1 e2
      subst e1
      cases xs with
      | nil => exact Or.inr rfl
      | cons y ys => simp at e2
  | cons a0 as =>
    injection hab with e1 e2
    have := congrArg List.length e2
    simp [List.length_append] at this
    have hp : pat = [] := List.length_eq_zero.1 (by omega)
    exact Or.inl hp

theorem occursIn_snoc_nl {pat : Str} (hnl : '\n' ∉ pat) (hne : pat ≠ []) {y : Str}
    (h : OccursIn pat (y ++ ['\n'])) : OccursIn pat y := by
  rcases occursIn_append_elim h with h1 | h1 | ⟨i, k, hk0, hklen, hlen, hdrop, hsw⟩
  · exact h1
  · rcases occursIn_singleton h1 with rfl | rfl
    · exact absurd rfl hne
    · exact absurd (List.mem_singleton.2 rfl) hnl
  · exfalso
    obtain ⟨t, ht⟩ := (startsWithL_iff _ _).1 hsw
    cases hdk : pat.drop k with
    | nil =>
      have := congrArg List.length hdk
      rw [List.length_drop] at this
      simp at this
      omega
    | cons a as =>
      rw [hdk] at ht
      injection ht with e1 e2
      rw [← e1] at hdk
      exact hnl (List.drop_subset k pat (hdk ▸ List.mem_cons_self '\n' as))

theorem occursIn_nl_cons {pat : Str} (hnl : '\n' ∉ pat) (hne : pat ≠ []) {J : Str}
    (h : OccursIn pat ('\n' :: J)) : OccursIn pat J := by
  replace h : OccursIn pat (['\n'] ++ J) := h
  rcases occursIn_append_elim h with h1 | h1 | ⟨i, k, hk0, hklen, hlen, hdrop, hsw⟩
  · rcases occursIn_singleton h1 with rfl | rfl
    · exact absurd rfl hne
    · exact absurd (List.mem_singleton.2 rfl) hnl
  · exact h1
  · exfalso
    simp at hlen
    have hi : i = 0 := by omega
    subst hi
    rw [List.drop_zero] at hdrop
    exact hnl (List.take_subset k pat (hdrop ▸ List.mem_singleton.2 rfl))

theorem occursIn_joinLines {pat : Str} (hnl : '\n' ∉ pat) (hne : pat ≠ []) :
    ∀ (ps : List Str), OccursIn pat (joinLines ps) → ∃ p ∈ ps, OccursIn pat p := by
  intro ps
  induction ps with
  | nil =>
    intro h
    exact absurd (occursIn_nil h) hne
  | cons l ls ih =>
    intro h
    cases ls with
    | nil => exact ⟨l, List.mem_singleton.2 rfl, h⟩
    | cons a as =>
      rw [joinLines_cons l (a :: as) (by exact nofun)] at h
      replace h : OccursIn pat (l ++ ('\n' :: joinLines (a :: as))) := h
      rcases occursIn_append_elim h with h1 | h1 | ⟨i, k, hk0, hklen, hlen, hdrop, hsw⟩
      · exact ⟨l, List.mem_cons_self _ _, h1⟩
      · have h2 := occursIn_nl_cons hnl hne h1
        obtain ⟨p, hp, hop⟩ := ih h2
        exact ⟨p, List.mem_cons_of_mem _ hp, hop⟩
      · exfalso
        obtain ⟨t, ht⟩ := (startsWithL_iff _ _).1 hsw
        cases hdk : pat.drop k with
        | nil =>
          have := congrArg List.length hdk
          rw [List.length_drop] at this
          simp at this
          omega
        | cons b bs =>
          rw [hdk] at ht
          injection ht with e1 e2
          rw [← e1] at hdk
          exact hnl (List.drop_subset k pat (hdk ▸ List.mem_cons_self '\n' bs))

theorem bang_starts_zero {pat x : Str} (hp : ∃ t, pat = '!' :: t)
    (hx : '!' ∉ x.drop 1) : ∀ j, StartsAt pat x j → j = 0 := by
  intro j hj
  by_contra hne
  obtain ⟨t, rfl⟩ := hp
  exact hx (drop_subset_drop_one (by omega) (mem_of_startsAt_head hj))

theorem straddle_ne_of_last {pat y : Str} {c : Char} (hc : c ∉ pat) :
    ∀ j k, 0 < k → k < pat.length → (y ++ [c]).length = j + k →
      (y ++ [c]).drop j ≠ pat.take k := by
  intro j k hk0 hklen hlen heq
  have hj : j ≤ y.length := by
    rw [List.length_append] at hlen
    simp at hlen
    omega
  have hmem : c ∈ (y ++ [c]).drop j := mem_last_drop y c j hj
  rw [heq] at hmem
  exact hc (List.take_subset k pat hmem)

theorem matchAt_starts {head s : Str} {x : Str × Str} (h : matchAt head s = some x) :
    startsWithL head s = true := by
  unfold matchAt at h
  split at h
  · assumption
  · cases h

theorem startsAt_sandwich {pat U mid W : Str} {i : Nat}
    (h : StartsAt pat (U ++ (mid ++ W)) i)
    (hU : ∀ j, ¬ StartsAt pat U j)
    (hW : ∀ j, ¬ StartsAt pat W j)
    (hUs : ∀ j k, 0 < k → k < pat.length → U.length = j + k → U.drop j ≠ pat.take k)
    (hms : ∀ j k, 0 < k → k < pat.length → mid.length = j + k → mid.drop j ≠ pat.take k) :
    ∃ j, j + pat.length ≤ mid.length ∧ StartsAt pat mid j ∧ i = U.length + j := by
  rcases startsAt_append_elim h with ⟨hfit, hin⟩ | ⟨hge, hin⟩ | ⟨hlt, hgt, hdrop, hsw⟩
  · exact absurd hin (hU i)
  · rcases startsAt_append_elim hin with ⟨hfit2, hin2⟩ | ⟨hge2, hin2⟩ |
      ⟨hlt2, hgt2, hdrop2, hsw2⟩
    · exact ⟨i - U.length, hfit2, hin2, by omega⟩
    · exact absurd hin2 (hW _)
    · exact absurd hdrop2
        (hms _ (mid.length - (i - U.length)) (by omega) (by omega) (by omega))
  · exact absurd hdrop (hUs i (U.length - i) (by omega) (by omega) (by omega))

theorem filter_eq_singleton {l : List Nat} {p : Nat → Bool} {i : Nat}
    (hnd : l.Nodup) (hi : i ∈ l) (hp : p i = true)
    (huniq : ∀ j ∈ l, p j = true → j = i) : l.filter p = [i] := by
  induction l with
  | nil => cases hi
  | cons a rest ih =>
    rw [List.nodup_cons] at hnd
    rcases List.mem_cons.1 hi with rfl | hi2
    · rw [List.filter_cons_of_pos hp]
      have hnil : rest.filter p = [] := by
        rw [List.filter_eq_nil_iff]
        intro j hj hpj
        have := huniq j (List.mem_cons_of_mem _ hj) hpj
        subst this
        exact hnd.1 hj
      rw [hnil]
    · have ha : ¬ p a = true := by
        intro hpa
        have := huniq a (List.mem_cons_self _ _) hpa
        subst this
        exact hnd.1 hi2
      rw [List.filter_cons_of_neg ha]
      exact ih hnd.2 hi2 (fun j hj hpj => huniq j (List.mem_cons_of_mem _ hj) hpj)

theorem countStarts_eq_one {pat s : Str} {i0 : Nat} (hne : pat ≠ [])
    (hex : StartsAt pat s i0) (huniq : ∀ i, StartsAt pat s i → i = i0) :
    countStarts pat s = 1 := by
  unfold countStarts
  have hmem : i0 ∈ List.range (s.length + 1) := by
    rw [List.mem_range]
    have := startsAt_le hne hex
    omega
  rw [filter_eq_singleton (List.nodup_range _) hmem
    (show startsWithL pat (s.drop i0) = true from hex)
    (fun j _ hpj => huniq j hpj)]
  rfl

/-! ### Structure of the two badge texts -/

theorem vHead_bang : ∃ t, vHead = '!' :: t := ⟨vHead.drop 1, rfl⟩

theorem sHead_bang : ∃ t, sHead = '!' :: t := ⟨sHead.drop 1, rfl⟩

theorem vBadge_snoc (vs : Option Str) :
    versionBadge vs = (vHead ++ interpStr vs ++ str "-blue") ++ [')'] := by
  unfold versionBadge
  rw [show str "-blue)" = str "-blue" ++ [')'] from rfl]
  simp [List.append_assoc]

theorem sBadge_snoc (szStr : Str) :
    sizeBadge szStr = (sHead ++ szStr ++ str "-success") ++ [')'] := by
  unfold sizeBadge
  rw [show str "-success)" = str "-success" ++ [')'] from rfl]
  simp [List.append_assoc]

theorem vBadge_cons (vs : Option Str) :
    versionBadge vs = '!' :: (vHead.drop 1 ++ (interpStr vs ++ str "-blue)")) := rfl

theorem sBadge_cons (szStr : Str) :
    sizeBadge szStr = '!' :: (sHead.drop 1 ++ (szStr ++ str "-success)")) := rfl

theorem vBadge_no_bang_tail {vs : Option Str} (hv : '!' ∉ interpStr vs) :
    '!' ∉ (versionBadge vs).drop 1 := by
  rw [vBadge_cons]
  simp only [List.drop_succ_cons, List.drop_zero]
  intro h
  rw [List.mem_append, List.mem_append] at h
  rcases h with h | h | h
  · exact absurd h (by decide)
  · exact hv h
  · exact absurd h (by decide)

theorem sBadge_no_bang_tail {szStr : Str} (hsz : '!' ∉ szStr) :
    '!' ∉ (sizeBadge szStr).drop 1 := by
  rw [sBadge_cons]
  simp only [List.drop_succ_cons, List.drop_zero]
  intro h
  rw [List.mem_append, List.mem_append] at h
  rcases h with h | h | h
  · exact absurd h (by decide)
  · exact hsz h
  · exact absurd h (by decide)

theorem vBadge_starts_zero {vs : Option Str} (hv : '!' ∉ interpStr vs) :
    ∀ j, StartsAt vHead (versionBadge vs) j → j = 0 :=
  bang_starts_zero vHead_bang (vBadge_no_bang_tail hv)

theorem sBadge_starts_zero {szStr : Str} (hsz : '!' ∉ szStr) :
    ∀ j, StartsAt sHead (sizeBadge szStr) j → j = 0 :=
  bang_starts_zero sHead_bang (sBadge_no_bang_tail hsz)

theorem no_vHead_starts_sBadge {szStr : Str} (hsz : '!' ∉ szStr) :
    ∀ j, ¬ StartsAt vHead (sizeBadge szStr) j := by
  intro j hj
  have hj0 := bang_starts_zero vHead_bang (sBadge_no_bang_tail hsz) j hj
  subst hj0
  unfold StartsAt at hj
  rw [List.drop_zero] at hj
  have e1 : vHead = '!' :: '[' :: 'v' :: vHead.drop 3 := rfl
  have e2 : sizeBadge szStr =
      '!' :: '[' :: 'm' :: (sHead.drop 3 ++ (szStr ++ str "-success)")) := rfl
  rw [e1, e2] at hj
  simp only [startsWithL, Bool.and_eq_true, beq_iff_eq] at hj
  obtain ⟨-, -, h3, -⟩ := hj
  exact absurd h3 (by decide)

theorem no_sHead_starts_vBadge {vs : Option Str} (hv : '!' ∉ interpStr vs) :
    ∀ j, ¬ StartsAt sHead (versionBadge vs) j := by
  intro j hj
  have hj0 := bang_starts_zero sHead_bang (vBadge_no_bang_tail hv) j hj
  subst hj0
  unfold StartsAt at hj
  rw [List.drop_zero] at hj
  have e1 : sHead = '!' :: '[' :: 'm' :: sHead.drop 3 := rfl
  have e2 : versionBadge vs =
      '!' :: '[' :: 'v' :: (vHead.drop 3 ++ (interpStr vs ++ str "-blue)")) := rfl
  rw [e1, e2] at hj
  simp only [startsWithL, Bool.and_eq_true, beq_iff_eq] at hj
  obtain ⟨-, -, h3, -⟩ := hj
  exact absurd h3 (by decide)

theorem vBadge_straddle {vs : Option Str} {pat : Str} (hc : ')' ∉ pat) :
    ∀ j k, 0 < k → k < pat.length → (versionBadge vs).length = j + k →
      (versionBadge vs).drop j ≠ pat.take k := by
  simp only [vBadge_snoc]
  exact straddle_ne_of_last hc

theorem sBadge_straddle {szStr pat : Str} (hc : ')' ∉ pat) :
    ∀ j k, 0 < k → k < pat.length → (sizeBadge szStr).length = j + k →
      (sizeBadge szStr).drop j ≠ pat.take k := by
  simp only [sBadge_snoc]
  exact straddle_ne_of_last hc

theorem straddle_ne_paren_space {pat z : Str} (hb : ∃ t, pat = '!' :: t)
    (hc : ')' ∉ pat) :
    ∀ j k, 0 < k → k < pat.length → ((z ++ [')']) ++ [' ']).length = j + k →
      ((z ++ [')']) ++ [' ']).drop j ≠ pat.take k := by
  intro j k hk0 hklen hlen heq
  rcases Nat.lt_or_ge 1 k with hk2 | hk1
  · have hj : j ≤ z.length := by
      simp [List.length_append] at hlen
      omega
    have hdropz : ((z ++ [')']) ++ [' ']).drop j = (z ++ [')']).drop j ++ [' '] := by
      exact drop_append_of_le (by rw [List.length_append]; simp; omega)
    have hmem : ')' ∈ ((z ++ [')']) ++ [' ']).drop j := by
      rw [hdropz]
      exact List.mem_append_left _ (mem_last_drop z ')' j hj)
    rw [heq] at hmem
    exact hc (List.take_subset k pat hmem)
  · have hk : k = 1 := by omega
    subst hk
    obtain ⟨t, rfl⟩ := hb
    have hjj : j = (z ++ [')']).length := by
      simp [List.length_append] at hlen ⊢
      omega
    rw [hjj, List.drop_left] at heq
    simp at heq

/-! ### The insertion pass of the badge updater -/

theorem findMatch_none_of_not_occurs {head s : Str} (h : ¬ OccursIn head s) :
    findMatch head s = none := by
  apply findMatch_eq_none
  intro i
  cases hm : matchAt head (s.drop i) with
  | none => rfl
  | some x =>
    exact absurd ((occursIn_iff head s).2 ⟨i, matchAt_starts hm⟩) h

theorem ushape_straddle {pat U : Str} (hnl : '\n' ∉ pat)
    (hUshape : U = [] ∨ ∃ y, U = y ++ ['\n']) :
    ∀ j k, 0 < k → k < pat.length → U.length = j + k → U.drop j ≠ pat.take k := by
  rcases hUshape with rfl | ⟨y, rfl⟩
  · intro j k hk0 hklen hlen
    simp at hlen
    omega
  · exact straddle_ne_of_last hnl

theorem updateVersion_none_shape {vB content : Str}
    (hfm : findMatch vHead content = none) :
    ∃ U W, updateVersion vB content = U ++ (vB ++ W) ∧
      (U = [] ∨ ∃ y, U = y ++ ['\n']) ∧
      (∀ pat : Str, '\n' ∉ pat → pat ≠ [] → ¬ OccursIn pat content →
        ¬ OccursIn pat U ∧ ¬ OccursIn pat W) := by
  cases hidx : (splitLines content).findIdx? (fun line => startsWithL (str "# ") line) with
  | some t =>
    have hstep : updateVersion vB content =
        joinLines (insertAt (t + 1) ('\n' :: vB) (splitLines content)) := by
      simp only [updateVersion, hfm, hidx]
    refine ⟨(((splitLines content).take (t + 1)).map fun l => l ++ ['\n']).join ++ ['\n'],
      (if ((splitLines content).drop (t + 1)).isEmpty then []
        else '\n' :: joinLines ((splitLines content).drop (t + 1))),
      ?_, Or.inr ⟨_, rfl⟩, ?_⟩
    · rw [hstep, insertAt_eq, joinLines_decomp]
      simp [List.append_assoc]
    · intro pat hnl hne hno
      constructor
      · intro hocc
        have h1 := occursIn_snoc_nl hnl hne hocc
        obtain ⟨x, hx, hox⟩ := occursIn_map_join hnl hne _ h1
        exact hno (mem_splitLines_occursIn content x (List.take_subset _ _ hx) hox)
      · intro hocc
        by_cases hys : ((splitLines content).drop (t + 1)).isEmpty
        · rw [if_pos hys] at hocc
          exact hne (occursIn_nil hocc)
        · rw [if_neg hys] at hocc
          have h1 := occursIn_nl_cons hnl hne hocc
          obtain ⟨p, hp, hop⟩ := occursIn_joinLines hnl hne _ h1
          exact hno (mem_splitLines_occursIn content p (List.drop_subset _ _ hp) hop)
  | none =>
    have hstep : updateVersion vB content =
        joinLines ((vB ++ ['\n']) :: splitLines content) := by
      simp only [updateVersion, hfm, hidx]
    refine ⟨[], '\n' :: '\n' :: joinLines (splitLines content), ?_, Or.inl rfl, ?_⟩
    · rw [hstep, joinLines_cons _ _ (splitLines_ne_nil content)]
      simp [List.append_assoc]
    · intro pat hnl hne hno
      refine ⟨fun hocc => hne (occursIn_nil hocc), fun hocc => ?_⟩
      have h1 := occursIn_nl_cons hnl hne (occursIn_nl_cons hnl hne hocc)
      obtain ⟨p, hp, hop⟩ := occursIn_joinLines hnl hne _ h1
      exact hno (mem_splitLines_occursIn content p hp hop)

/-! ### Uniqueness of the badge-head positions in a badged README -/

theorem no_starts_nil {pat : Str} (hne : pat ≠ []) : ∀ j, ¬ StartsAt pat ([] : Str) j := by
  intro j hj
  unfold StartsAt at hj
  rw [List.drop_nil] at hj
  cases pat with
  | nil => exact hne rfl
  | cons a as => exact Bool.false_ne_true hj

theorem nil_straddle {pat : Str} :
    ∀ j k, 0 < k → k < pat.length → ([] : Str).length = j + k →
      ([] : Str).drop j ≠ pat.take k := by
  intro j k hk0 hklen hlen
  simp at hlen
  omega

theorem no_vHead_starts_sB_app {szStr W : Str} (hsz2 : '!' ∉ szStr)
    (hWv : ¬ OccursIn vHead W) :
    ∀ j, ¬ StartsAt vHead (sizeBadge szStr ++ W) j := by
  intro j hj
  obtain ⟨i, -, hst, -⟩ := startsAt_sandwich
    (show StartsAt vHead ([] ++ (sizeBadge szStr ++ W)) j from hj)
    (no_starts_nil (by decide)) (no_starts_of_not_occurs hWv)
    nil_straddle (sBadge_straddle (by decide))
  exact no_vHead_starts_sBadge hsz2 i hst

theorem no_vHead_starts_tail {szStr W : Str} (hsz2 : '!' ∉ szStr)
    (hWv : ¬ OccursIn vHead W) :
    ∀ j, ¬ StartsAt vHead (' ' :: (sizeBadge szStr ++ W)) j := by
  intro j hj
  cases j with
  | zero =>
    unfold StartsAt at hj
    rw [List.drop_zero, show vHead = '!' :: vHead.drop 1 from rfl,
      starts_cons_ne (by decide)] at hj
    exact Bool.false_ne_true hj
  | succ m =>
    unfold StartsAt at hj
    rw [List.drop_succ_cons] at hj
    exact no_vHead_starts_sB_app hsz2 hWv m hj

theorem no_sHead_starts_vB_sp {vs : Option Str} {U : Str} (hv2 : '!' ∉ interpStr vs)
    (hUshape : U = [] ∨ ∃ y, U = y ++ ['\n']) (hUs : ¬ OccursIn sHead U) :
    ∀ j, ¬ StartsAt sHead (U ++ (versionBadge vs ++ [' '])) j := by
  intro j hj
  obtain ⟨i, -, hst, -⟩ := startsAt_sandwich hj
    (no_starts_of_not_occurs hUs)
    (no_starts_short (by decide) : ∀ j, ¬ StartsAt sHead [' '] j)
    (ushape_straddle (by decide) hUshape) (vBadge_straddle (by decide))
  exact no_sHead_starts_vBadge hv2 i hst

theorem usp_straddle {vs : Option Str} {U : Str} :
    ∀ j k, 0 < k → k < sHead.length → (U ++ (versionBadge vs ++ [' '])).length = j + k →
      (U ++ (versionBadge vs ++ [' '])).drop j ≠ sHead.take k := by
  have heq : U ++ (versionBadge vs ++ [' ']) =
      ((U ++ (vHead ++ interpStr vs ++ str "-blue")) ++ [')']) ++ [' '] := by
    rw [vBadge_snoc]
    simp [List.append_assoc]
  simp only [heq]
  exact straddle_ne_paren_space sHead_bang (by decide)

theorem badged_unique {vs : Option Str} {szStr U W : Str}
    (hv2 : '!' ∉ interpStr vs) (hsz2 : '!' ∉ szStr)
    (hUshape : U = [] ∨ ∃ y, U = y ++ ['\n'])
    (hUv : ¬ OccursIn vHead U) (hUs : ¬ OccursIn sHead U)
    (hWv : ¬ OccursIn vHead W) (hWs : ¬ OccursIn sHead W) :
    (∀ i, StartsAt vHead (U ++ (versionBadge vs ++ (' ' :: (sizeBadge szStr ++ W)))) i →
      i = U.length) ∧
    (∀ i, StartsAt sHead (U ++ (versionBadge vs ++ (' ' :: (sizeBadge szStr ++ W)))) i →
      i = U.length + (versionBadge vs).length + 1) ∧
    StartsAt vHead (U ++ (versionBadge vs ++ (' ' :: (sizeBadge szStr ++ W)))) U.length ∧
    StartsAt sHead (U ++ (versionBadge vs ++ (' ' :: (sizeBadge szStr ++ W))))
      (U.length + (versionBadge vs).length + 1) := by
  have hregroup : U ++ (versionBadge vs ++ (' ' :: (sizeBadge szStr ++ W))) =
      (U ++ (versionBadge vs ++ [' '])) ++ (sizeBadge szStr ++ W) := by
    simp [List.append_assoc]
  have hlenUsp : (U ++ (versionBadge vs ++ [' '])).length =
      U.length + (versionBadge vs).length + 1 := by
    simp [List.length_append]
    omega
  refine ⟨?_, ?_, ?_, ?_⟩
  · intro i hi
    obtain ⟨j, -, hst, hieq⟩ := startsAt_sandwich hi (no_starts_of_not_occurs hUv)
      (no_vHead_starts_tail hsz2 hWv)
      (ushape_straddle (by decide) hUshape) (vBadge_straddle (by decide))
    have := vBadge_starts_zero hv2 j hst
    omega
  · intro i hi
    rw [hregroup] at hi
    obtain ⟨j, -, hst, hieq⟩ := startsAt_sandwich hi
      (no_sHead_starts_vB_sp hv2 hUshape hUs) (no_starts_of_not_occurs hWs)
      usp_straddle (sBadge_straddle (by decide))
    have := sBadge_starts_zero hsz2 j hst
    omega
  · unfold StartsAt
    rw [List.drop_left]
    rw [show versionBadge vs ++ (' ' :: (sizeBadge szStr ++ W)) =
      vHead ++ ((interpStr vs ++ str "-blue)") ++ (' ' :: (sizeBadge szStr ++ W))) by
        simp [versionBadge, List.append_assoc]]
    exact startsWithL_same _ _
  · unfold StartsAt
    rw [hregroup, ← hlenUsp, List.drop_left]
    rw [show sizeBadge szStr ++ W =
      sHead ++ ((szStr ++ str "-success)") ++ W) by simp [sizeBadge, List.append_assoc]]
    exact startsWithL_same _ _

/-! ### The two update passes: first insertion, then in-place replacement -/

theorem insert_pass {vs : Option Str} {szStr content : Str}
    (hv2 : '!' ∉ interpStr vs) (hsz2 : '!' ∉ szStr)
    (hnov : ¬ OccursIn vHead content) (hnos : ¬ OccursIn sHead content) :
    ∃ U W,
      updateSize (sizeBadge szStr) (versionBadge vs)
        (updateVersion (versionBadge vs) content) =
        U ++ (versionBadge vs ++ (' ' :: (sizeBadge szStr ++ W))) ∧
      (U = [] ∨ ∃ y, U = y ++ ['\n']) ∧
      ¬ OccursIn vHead U ∧ ¬ OccursIn sHead U ∧
      ¬ OccursIn vHead W ∧ ¬ OccursIn sHead W := by
  obtain ⟨U, W, hc1, hUshape, hreg⟩ :=
    @updateVersion_none_shape (versionBadge vs) content (findMatch_none_of_not_occurs hnov)
  obtain ⟨hUv, hWv⟩ := hreg vHead (by decide) (by decide) hnov
  obtain ⟨hUs, hWs⟩ := hreg sHead (by decide) (by decide) hnos
  refine ⟨U, W, ?_, hUshape, hUv, hUs, hWv, hWs⟩
  have hnoS : ∀ i, ¬ StartsAt sHead (U ++ (versionBadge vs ++ W)) i := by
    intro i hi
    obtain ⟨j, -, hst, -⟩ := startsAt_sandwich hi (no_starts_of_not_occurs hUs)
      (no_starts_of_not_occurs hWs) (ushape_straddle (by decide) hUshape)
      (vBadge_straddle (by decide))
    exact no_sHead_starts_vBadge hv2 j hst
  have hfm2 : findMatch sHead (U ++ (versionBadge vs ++ W)) = none := by
    apply findMatch_eq_none
    intro i
    cases hm : matchAt sHead ((U ++ (versionBadge vs ++ W)).drop i) with
    | none => rfl
    | some x => exact absurd (matchAt_starts hm) (hnoS i)
  have hvuniq : ∀ i, StartsAt vHead (U ++ (versionBadge vs ++ W)) i → i = U.length := by
    intro i hi
    obtain ⟨j, -, hst, hieq⟩ := startsAt_sandwich hi (no_starts_of_not_occurs hUv)
      (no_starts_of_not_occurs hWv) (ushape_straddle (by decide) hUshape)
      (vBadge_straddle (by decide))
    have := vBadge_starts_zero hv2 j hst
    omega
  have hoccB : OccursIn (versionBadge vs) (U ++ (versionBadge vs ++ W)) :=
    ⟨U, W, by simp [List.append_assoc]⟩
  obtain ⟨v, hv⟩ :
      ∃ v, jsIndexOf (versionBadge vs) (U ++ (versionBadge vs ++ W)) = some v := by
    cases hj : jsIndexOf (versionBadge vs) (U ++ (versionBadge vs ++ W)) with
    | none =>
      obtain ⟨i, hi⟩ := (occursIn_iff _ _).1 hoccB
      exact absurd hi (jsIndexOf_none hj i)
    | some v => exact ⟨v, rfl⟩
  obtain ⟨hvst, -⟩ := jsIndexOf_some hv
  have hvhead : StartsAt vHead (U ++ (versionBadge vs ++ W)) v := by
    unfold StartsAt at hvst ⊢
    rw [show versionBadge vs = vHead ++ (interpStr vs ++ str "-blue)") by
      simp [versionBadge, List.append_assoc]] at hvst
    exact startsWithL_of_append hvst
  have hveq : v = U.length := hvuniq v hvhead
  subst hveq
  rw [hc1]
  have hstep : updateSize (sizeBadge szStr) (versionBadge vs) (U ++ (versionBadge vs ++ W)) =
      (U ++ (versionBadge vs ++ W)).take (U.length + (versionBadge vs).length) ++
        ' ' :: sizeBadge szStr ++
        (U ++ (versionBadge vs ++ W)).drop (U.length + (versionBadge vs).length) := by
    simp only [updateSize, hfm2, hv]
  rw [hstep]
  have hassoc : U ++ (versionBadge vs ++ W) = (U ++ versionBadge vs) ++ W := by
    simp [List.append_assoc]
  have hlen : U.length + (versionBadge vs).length = (U ++ versionBadge vs).length := by
    simp [List.length_append]
  have htk : (U ++ (versionBadge vs ++ W)).take (U.length + (versionBadge vs).length) =
      U ++ versionBadge vs := by
    rw [hassoc, hlen]
    exact List.take_left _ _
  have hdp : (U ++ (versionBadge vs ++ W)).drop (U.length + (versionBadge vs).length) =
      W := by
    rw [hassoc, hlen]
    exact List.drop_left _ _
  rw [htk, hdp]
  simp [List.append_assoc]

theorem jsSubst_no_dollar (m b a : Str) :
    ∀ s : Str, '$' ∉ s → jsSubst m b a s = s := by
  intro s
  induction s with
  | nil => intro h; rfl
  | cons c rest ih =>
    intro h
    have hc : ¬ c = '$' := fun e => h (by rw [e]; exact List.mem_cons_self _ _)
    have hr : '$' ∉ rest := fun e => h (List.mem_cons_of_mem _ e)
    cases rest with
    | nil => rfl
    | cons d rest2 =>
      simp only [jsSubst, if_neg hc]
      rw [ih hr]

theorem vBadge_no_dollar {vs : Option Str} (hvd : '$' ∉ interpStr vs) :
    '$' ∉ versionBadge vs := by
  intro h
  unfold versionBadge at h
  rw [List.mem_append, List.mem_append] at h
  rcases h with (h | h) | h
  · exact absurd h (by decide)
  · exact hvd h
  · exact absurd h (by decide)

theorem replace_pass {vs : Option Str} {szStr U W : Str}
    (huv : ∀ i,
      StartsAt vHead (U ++ (versionBadge vs ++ (' ' :: (sizeBadge szStr ++ W)))) i →
      i = U.length)
    (hus : ∀ i,
      StartsAt sHead (U ++ (versionBadge vs ++ (' ' :: (sizeBadge szStr ++ W)))) i →
      i = U.length + (versionBadge vs).length + 1)
    (hv1 : ')' ∉ interpStr vs) (hvd : '$' ∉ interpStr vs) (hsz1 : ')' ∉ szStr) :
    updateSize (sizeBadge szStr) (versionBadge vs)
      (updateVersion (versionBadge vs)
        (U ++ (versionBadge vs ++ (' ' :: (sizeBadge szStr ++ W))))) =
      U ++ (versionBadge vs ++ (' ' :: (sizeBadge szStr ++ W))) := by
  have hmv : matchAt vHead (versionBadge vs ++ (' ' :: (sizeBadge szStr ++ W))) =
      some (versionBadge vs, ' ' :: (sizeBadge szStr ++ W)) := by
    apply matchAt_some_iff.2
    refine ⟨interpStr vs ++ str "-blue", ?_, ?_, ?_, ?_⟩
    · intro h
      exact absurd (List.append_eq_nil.1 h).2 (by decide)
    · intro h
      rw [List.mem_append] at h
      rcases h with h | h
      · exact hv1 h
      · exact absurd h (by decide)
    · rw [vBadge_snoc]
      simp [List.append_assoc]
    · rw [vBadge_snoc]
      simp [List.append_assoc]
  have hpre1 : ∀ i, i < U.length →
      matchAt vHead
        ((U ++ (versionBadge vs ++ (' ' :: (sizeBadge szStr ++ W)))).drop i) = none := by
    intro i hilt
    cases hm : matchAt vHead
        ((U ++ (versionBadge vs ++ (' ' :: (sizeBadge szStr ++ W)))).drop i) with
    | none => rfl
    | some x =>
      have := huv i (matchAt_starts hm)
      omega
  have hfm1 : findMatch vHead (U ++ (versionBadge vs ++ (' ' :: (sizeBadge szStr ++ W)))) =
      some (U, versionBadge vs, ' ' :: (sizeBadge szStr ++ W)) :=
    findMatch_found U _ _ _ hpre1 hmv
  have hupv : updateVersion (versionBadge vs)
      (U ++ (versionBadge vs ++ (' ' :: (sizeBadge szStr ++ W)))) =
      U ++ (versionBadge vs ++ (' ' :: (sizeBadge szStr ++ W))) := by
    simp only [updateVersion, hfm1]
    rw [jsSubst_no_dollar _ _ _ _ (vBadge_no_dollar hvd)]
    simp [List.append_assoc]
  rw [hupv]
  have hregroup : U ++ (versionBadge vs ++ (' ' :: (sizeBadge szStr ++ W))) =
      (U ++ (versionBadge vs ++ [' '])) ++ (sizeBadge szStr ++ W) := by
    simp [List.append_assoc]
  have hlenUsp : (U ++ (versionBadge vs ++ [' '])).length =
      U.length + (versionBadge vs).length + 1 := by
    simp [List.length_append]
    omega
  have hms : matchAt sHead (sizeBadge szStr ++ W) = some (sizeBadge szStr, W) := by
    apply matchAt_some_iff.2
    refine ⟨szStr ++ str "-success", ?_, ?_, ?_, ?_⟩
    · intro h
      exact absurd (List.append_eq_nil.1 h).2 (by decide)
    · intro h
      rw [List.mem_append] at h
      rcases h with h | h
      · exact hsz1 h
      · exact absurd h (by decide)
    · rw [sBadge_snoc]
      simp [List.append_assoc]
    · rw [sBadge_snoc]
      simp [List.append_assoc]
  have hpre2 : ∀ i, i < (U ++ (versionBadge vs ++ [' '])).length →
      matchAt sHead
        (((U ++ (versionBadge vs ++ [' '])) ++ (sizeBadge szStr ++ W)).drop i) = none := by
    intro i hilt
    cases hm : matchAt sHead
        (((U ++ (versionBadge vs ++ [' '])) ++ (sizeBadge szStr ++ W)).drop i) with
    | none => rfl
    | some x =>
      have hst : StartsAt sHead
          (U ++ (versionBadge vs ++ (' ' :: (sizeBadge szStr ++ W)))) i := by
        rw [hregroup]
        exact matchAt_starts hm
      have := hus i hst
      omega
  have hfm2 : findMatch sHead (U ++ (versionBadge vs ++ (' ' :: (sizeBadge szStr ++ W)))) =
      some (U ++ (versionBadge vs ++ [' ']), sizeBadge szStr, W) := by
    rw [hregroup]
    exact findMatch_found _ _ _ _ hpre2 hms
  have hfin : updateSize (sizeBadge szStr) (versionBadge vs)
      (U ++ (versionBadge vs ++ (' ' :: (sizeBadge szStr ++ W)))) =
      (U ++ (versionBadge vs ++ [' '])) ++ sizeBadge szStr ++ W := by
    simp only [updateSize, hfm2]
  rw [hfin]
  simp [List.append_assoc]

/-- C6: for every README content containing neither badge-head text, running the
badge updater twice in succession with the same package manifest and chunk set
first inserts the version badge and the size badge, then replaces them in place:
the first run writes a README in which each badge head occurs at exactly one
position, and the second run leaves that README unchanged (the version string is
assumed free of the characters `)`, `!` and `$` — the regex delimiter, the
badge-head initial and the JS substitution marker — as every real semver
string is). -/
theorem c6_round_trip (gz : Str → Nat) (fs : ReadmeFs) (bundle : List Chunk)
    (content : Str) (pkg : PackageJson)
    (hr : fs.readme = some content)
    (hp : fs.pkgJson = some (.ok pkg))
    (hw : fs.writeOk = true)
    (hv1 : ')' ∉ interpStr pkg.version)
    (hv2 : '!' ∉ interpStr pkg.version)
    (hv3 : '$' ∉ interpStr pkg.version)
    (hnov : occursB vHead content = false)
    (hnos : occursB sHead content = false) :
    ∃ c1, writeBundle gz fs bundle = ({ fs with readme := some c1 }, []) ∧
      writeBundle gz { fs with readme := some c1 } bundle =
        ({ fs with readme := some c1 }, []) ∧
      countStarts vHead c1 = 1 ∧ countStarts sHead c1 = 1 := by
  have hnov2 : ¬ OccursIn vHead content := by
    intro ho
    rw [(occursB_iff _ _).2 ho] at hnov
    exact Bool.noConfusion hnov
  have hnos2 : ¬ OccursIn sHead content := by
    intro ho
    rw [(occursB_iff _ _).2 ho] at hnos
    exact Bool.noConfusion hnos
  obtain ⟨U, W, hshape, hUshape, hUv, hUs, hWv, hWs⟩ :=
    @insert_pass pkg.version (sizeFixed2 (bundle.foldl
        (fun acc c => if c.type == str "chunk" then acc + gz c.code else acc) 0) ++ str "kB")
      content hv2 (szStr_no_bang _) hnov2 hnos2
  obtain ⟨huv, hus, hvex, hsex⟩ :=
    @badged_unique pkg.version (sizeFixed2 (bundle.foldl
        (fun acc c => if c.type == str "chunk" then acc + gz c.code else acc) 0) ++ str "kB")
      U W hv2 (szStr_no_bang _) hUshape hUv hUs hWv hWs
  refine ⟨U ++ (versionBadge pkg.version ++ (' ' :: (sizeBadge (sizeFixed2 (bundle.foldl
      (fun acc c => if c.type == str "chunk" then acc + gz c.code else acc) 0) ++
      str "kB") ++ W))), ?_, ?_, ?_, ?_⟩
  · have hrun1 : writeBundle gz fs bundle = ({ fs with readme := some (updateSize
        (sizeBadge (sizeFixed2 (bundle.foldl
          (fun acc c => if c.type == str "chunk" then acc + gz c.code else acc) 0) ++
          str "kB"))
        (versionBadge pkg.version)
        (updateVersion (versionBadge pkg.version) content)) }, []) := by
      simp [writeBundle, writeBundleTry, hr, hp, hw]
    rw [hrun1, hshape]
  · have hrun2 : writeBundle gz { fs with readme := some (U ++ (versionBadge pkg.version ++
        (' ' :: (sizeBadge (sizeFixed2 (bundle.foldl
          (fun acc c => if c.type == str "chunk" then acc + gz c.code else acc) 0) ++
          str "kB") ++ W)))) } bundle =
        ({ fs with readme := some (updateSize
          (sizeBadge (sizeFixed2 (bundle.foldl
            (fun acc c => if c.type == str "chunk" then acc + gz c.code else acc) 0) ++
            str "kB"))
          (versionBadge pkg.version)
          (updateVersion (versionBadge pkg.version)
            (U ++ (versionBadge pkg.version ++ (' ' :: (sizeBadge (sizeFixed2 (bundle.foldl
              (fun acc c => if c.type == str "chunk" then acc + gz c.code else acc) 0) ++
              str "kB") ++ W)))))) }, []) := by
      simp [writeBundle, writeBundleTry, hp, hw]
    rw [hrun2, replace_pass huv hus hv1 hv3 (szStr_no_paren _)]
  · exact countStarts_eq_one (by decide) hvex huv
  · exact countStarts_eq_one (by decide) hsex hus

/-- Witness for `c6_round_trip`: on the concrete badge-free README `"hello"` with
the sample manifest, the first run succeeds silently, the second run leaves the
written README unchanged, and each badge head occurs exactly once. -/
theorem c6_round_trip_witness :
    (writeBundle (fun _ => 0) rfsSample []).2 = [] ∧
    writeBundle (fun _ => 0) (writeBundle (fun _ => 0) rfsSample []).1 [] =
      ((writeBundle (fun _ => 0) rfsSample []).1, []) ∧
    countStarts vHead (((writeBundle (fun _ => 0) rfsSample []).1.readme).getD []) = 1 ∧
    countStarts sHead (((writeBundle (fun _ => 0) rfsSample []).1.readme).getD []) = 1 := by
  obtain ⟨c1, h1, h2, h3, h4⟩ :=
    c6_round_trip (fun _ => 0) rfsSample [] (str "hello") samplePkg rfl rfl rfl
      (by decide) (by decide) (by decide) (by decide) (by decide)
  refine ⟨?_, ?_, ?_, ?_⟩
  · simp [h1]
  · simp [h1, h2]
  · simp [h1, h3]
  · simp [h1, h4]

/-- C7: the size-badge step of the badge updater behaves three ways. If the
content matches the fixed size-badge pattern, the leftmost match is replaced in
place by the new size badge (second conjunct characterises matching as the
existence of a `sHead`-then-nonempty-`)`-free-run-then-`)` decomposition).
Otherwise, if the version badge text occurs in the content, one space and the
size badge are inserted immediately after its first occurrence. Otherwise the
content is returned unchanged, with no size badge inserted at all. -/
theorem c7_size_step (sB vB content : Str) :
    (∀ p m r, findMatch sHead content = some (p, m, r) →
      updateSize sB vB content = p ++ sB ++ r ∧
      (∃ run, run ≠ [] ∧ ')' ∉ run ∧ m = sHead ++ run ++ [')'] ∧
        content = p ++ m ++ r) ∧
      (∀ i, i < p.length → matchAt sHead (content.drop i) = none)) ∧
    (findMatch sHead content = none ↔
      ¬ ∃ p run r, run ≠ [] ∧ ')' ∉ run ∧
        content = p ++ (sHead ++ (run ++ (')' :: r)))) ∧
    (findMatch sHead content = none → ∀ a b, content = a ++ vB ++ b →
      (∀ i, StartsAt vB content i → a.length ≤ i) →
      updateSize sB vB content = a ++ vB ++ (' ' :: sB) ++ b) ∧
    (findMatch sHead content = none → ¬ OccursIn vB content →
      updateSize sB vB content = content) := by
  refine ⟨?_, ⟨?_, ?_⟩, ?_, ?_⟩
  · intro p m r h
    obtain ⟨hdec, hma, hmin⟩ := findMatch_some_spec h
    obtain ⟨run, hrne, hrp, -, hm⟩ := matchAt_some_iff.1 hma
    refine ⟨?_, ⟨run, hrne, hrp, hm, hdec⟩, hmin⟩
    simp only [updateSize, h]
  · rintro hfm ⟨p, run, r, hrne, hrp, hdec⟩
    have hdrop : content.drop p.length = sHead ++ (run ++ (')' :: r)) := by
      rw [hdec]
      exact List.drop_left _ _
    have hms : matchAt sHead (content.drop p.length) =
        some (sHead ++ run ++ [')'], r) := by
      rw [hdrop]
      apply matchAt_some_iff.2
      exact ⟨run, hrne, hrp, by simp [List.append_assoc], rfl⟩
    rw [findMatch_none_starts hfm p.length] at hms
    cases hms
  · intro hne
    cases hfm : findMatch sHead content with
    | none => rfl
    | some x =>
      exfalso
      obtain ⟨p, m, r⟩ := x
      obtain ⟨hdec, hma, -⟩ := findMatch_some_spec hfm
      obtain ⟨run, hrne, hrp, -, hm⟩ := matchAt_some_iff.1 hma
      refine hne ⟨p, run, r, hrne, hrp, ?_⟩
      rw [hdec, hm]
      simp [List.append_assoc]
  · intro hfm a b hdec hmin
    have hocc : OccursIn vB content := ⟨a, b, hdec⟩
    obtain ⟨v, hv⟩ : ∃ v, jsIndexOf vB content = some v := by
      cases hj : jsIndexOf vB content with
      | none =>
        obtain ⟨i, hi⟩ := (occursIn_iff _ _).1 hocc
        exact absurd hi (jsIndexOf_none hj i)
      | some v => exact ⟨v, rfl⟩
    obtain ⟨hvst, hvmin⟩ := jsIndexOf_some hv
    have hsta : StartsAt vB content a.length := by
      unfold StartsAt
      rw [hdec, List.append_assoc, List.drop_left]
      exact startsWithL_same _ _
    have hle : a.length ≤ v := hmin v hvst
    have hge : ¬ a.length < v := fun hlt => hvmin a.length hlt hsta
    have hveq : v = a.length := by omega
    subst hveq
    have hstep : updateSize sB vB content =
        content.take (a.length + vB.length) ++ ' ' :: sB ++
          content.drop (a.length + vB.length) := by
      simp only [updateSize, hfm, hv]
    rw [hstep]
    have hassoc : content = (a ++ vB) ++ b := by rw [hdec]
    have hlen : a.length + vB.length = (a ++ vB).length := by
      simp [List.length_append]
    have htk : content.take (a.length + vB.length) = a ++ vB := by
      rw [hassoc, hlen]
      exact List.take_left _ _
    have hdp : content.drop (a.length + vB.length) = b := by
      rw [hassoc, hlen]
      exact List.drop_left _ _
    rw [htk, hdp]
  · intro hfm hnocc
    have hidx : jsIndexOf vB content = none := by
      cases hj : jsIndexOf vB content with
      | some v =>
        obtain ⟨hst, -⟩ := jsIndexOf_some hj
        exact absurd ((occursIn_iff _ _).2 ⟨v, hst⟩) hnocc
      | none => rfl
    simp only [updateSize, hfm, hidx]

/-- Witness for `c7_size_step`: replacing the concrete size badge `1.00kB` by the
new one `9.99kB` in a README that is exactly the old badge. -/
theorem c7_size_step_witness :
    updateSize (sizeBadge (str "9.99kB")) (versionBadge (some (str "1")))
      (sizeBadge (str "1.00kB")) = [] ++ sizeBadge (str "9.99kB") ++ [] :=
  ((c7_size_step (sizeBadge (str "9.99kB")) (versionBadge (some (str "1")))
    (sizeBadge (str "1.00kB"))).1 [] (sizeBadge (str "1.00kB")) [] (by decide)).1

end Spec2Proof
